import Mathlib

/-!
Shallow embedding of `render.py` (ppau-graphics render script, version 0.3.1).

The script walks a source tree of SVGs, and for each source file and each
variant in `VARIANTS` it: (1) skips the variant when a required placeholder
token is absent from the source (grep checks, lines 267-281), (2) builds the
substituted "tagged" SVG via sed (lines 286-291), (3) writes it to the render
tree only when the existing file differs byte-for-byte (lines 293-304),
(4) for each output format appends the output path to the manifest and decides
staleness by comparing modification times (lines 309-323), (5) invokes the
rendering backend once per tagged SVG when at least one format needs
regeneration (lines 326-339), and finally (6) serialises the manifest as a
sorted JSON array of single-key objects (lines 343-345).

Modelling choices:
* File contents are `String`s; the filesystem is a map `String → Option FileInfo`
  keyed by render-root-relative paths, with an explicit logical clock `now`
  supplying strictly increasing modification times.
* Path arithmetic of lines 220-245 (stripping `SOURCE_DIR`, `os.path.splitext`,
  re-joining under `RENDER_DIR`) is abstracted: a `SourceFile` carries its
  source-root-relative path with the extension stripped (`relStem`, the
  manifest key computed on line 222); tagged-artifact and output paths are
  derived from it exactly as the script derives them (lines 242-245, 311).
* `sed -e s/AUTH/../g -e s/PRINT/../g` (lines 287-291) is modelled as literal
  global substring replacement of the auth placeholder followed by the print
  placeholder; placeholders contain no newline (header comment, lines 11-13),
  so per-line processing coincides with whole-content processing.
* `grep -cF TAG file` (lines 268, 276) counts the lines of the file that
  contain the literal tag; modelled by `grepCount`.
* `filecmp.cmp` (line 295) on a freshly created temp file performs a content
  comparison; modelled as equality of contents.
* Observable effects (file writes, backend invocations, the final manifest
  write) are recorded in an event trace.
-/

namespace PPAU

/-- Run-time configuration of the script: the two placeholder tokens
(`AUTH_TAG`, `PRINT_TAG`, lines 34-35), the resolved replacement texts loaded
from the tag files (`auth_tag_full`, `print_tag_full`, lines 183-201), and the
backend executable path (line 19). -/
structure Config where
  AUTH_TAG : String
  PRINT_TAG : String
  auth_tag_full : String
  print_tag_full : String
  BACKEND_PATH : String
deriving DecidableEq

/-- One entry of `VARIANTS` (lines 46-48): `(name, include auth tag, include print tag)`. -/
structure Variant where
  name : String
  inclAuth : Bool
  inclPrint : Bool
deriving DecidableEq

/-- The built-in variant list, lines 46-48 of `render.py`. -/
def VARIANTS : List Variant :=
  [⟨"auth", true, false⟩, ⟨"both", true, true⟩, ⟨"none", false, false⟩]

/-- The built-in output format list, line 43 of `render.py`. -/
def FORMATS : List String := ["pdf", "png"]

/-- A discovered source SVG: its source-root-relative path with the extension
stripped (the manifest `key` computed on line 222) and its raw content. -/
structure SourceFile where
  relStem : String
  content : String
deriving DecidableEq

/-- A file on disk in the render tree: content plus modification time. -/
structure FileInfo where
  content : String
  mtime : Nat
deriving DecidableEq

/-- The manifest accumulated by the run (line 208): an insertion-ordered
association list from source keys to lists of render-root-relative output
paths, mirroring the Python dict. -/
abbrev Manifest := List (String × List String)

/-- Observable side effects of a run: a write to a tagged-artifact or output
file, a backend invocation (line 333) with its full argument list, and the
final manifest serialisation (lines 343-345). -/
inductive Event where
  | fileWrite (path : String)
  | backendCall (args : List String)
  | manifestWrite (out : Manifest)
deriving DecidableEq

/-- State threaded through the run: the render-tree filesystem, a logical
clock producing strictly increasing modification times, the manifest dict and
the three counters of lines 211-213, plus the trace of observable events. -/
structure RState where
  fs : String → Option FileInfo
  now : Nat
  manifest : Manifest
  skipcount : Nat
  updatecount : Nat
  notagcount : Nat
  trace : List Event

/-- Write one file: record content with the current write time. -/
def writeFS (fs : String → Option FileInfo) (p : String) (fi : FileInfo) :
    String → Option FileInfo :=
  fun q => if q = p then some fi else fs q

/-- Modification time at a path (`os.path.getmtime`); 0 if absent. -/
def mtimeAt (fs : String → Option FileInfo) (p : String) : Nat :=
  match fs p with
  | some fi => fi.mtime
  | none => 0

/-- Line 227, `manifest[key] = []`: (re)initialise the entry for `key` to the
empty list, keeping its insertion position if it already exists. -/
def manifestInit (m : Manifest) (key : String) : Manifest :=
  if m.any (fun kv => kv.1 == key) then
    m.map (fun kv => if kv.1 == key then (key, ([] : List String)) else kv)
  else m ++ [(key, [])]

/-- Line 313, `manifest[key].append(v)`: append `v` to the entry for `key`. -/
def manifestAppend (m : Manifest) (key : String) (v : String) : Manifest :=
  m.map (fun kv => if kv.1 == key then (kv.1, kv.2 ++ [v]) else kv)

/-- First-match lookup in the manifest association list. -/
def lookupM (m : Manifest) (k : String) : Option (List String) :=
  (m.find? (fun kv => kv.1 == k)).map (fun kv => kv.2)

/-- The tag loader (lines 186-201): given the tag file's content (`none` when
the file does not exist) and the placeholder token, return the replacement
text together with a flag recording whether the missing-file warning was
printed.  An existing file yields its whitespace-trimmed content and no
warning; a missing file yields the placeholder token itself and the warning. -/
def loadTag (fileContent : Option String) (tag : String) : String × Bool :=
  match fileContent with
  | some c => (c.trim, false)
  | none => (tag, true)

/-- Split content into lines at each newline character, as `grep` sees a file. -/
def splitLines : List Char → List (List Char)
  | [] => [[]]
  | c :: rest =>
    match splitLines rest with
    | [] => [[c]]
    | l :: ls => if c = '\n' then [] :: l :: ls else (c :: l) :: ls

/-- Does `pat` occur as a contiguous substring of `l`? -/
def containsSub (pat : List Char) : List Char → Bool
  | [] => pat.isEmpty
  | c :: rest => pat.isPrefixOf (c :: rest) || containsSub pat rest

/-- Model of `int(subprocess.run(["grep", "-cF", pat, s]).stdout)` (lines
268-270, 276-278): the number of lines of `content` containing the literal
string `pat`. -/
def grepCount (pat content : String) : Nat :=
  ((splitLines content.data).filter (fun l => containsSub pat.data l)).length

/-- Line 267-270: the auth-variant gating test found no auth placeholder. -/
def noAuthTag (cfg : Config) (sf : SourceFile) : Bool :=
  decide (grepCount cfg.AUTH_TAG sf.content < 1)

/-- Line 275-278: the print-variant gating test found no print placeholder. -/
def noPrintTag (cfg : Config) (sf : SourceFile) : Bool :=
  decide (grepCount cfg.PRINT_TAG sf.content < 1)

/-- The combined skip condition of lines 267-281: the variant is skipped when
it requires a token whose placeholder does not occur in the source. -/
def skippedVariant (cfg : Config) (sf : SourceFile) (v : Variant) : Bool :=
  (v.inclAuth && noAuthTag cfg sf) || (v.inclPrint && noPrintTag cfg sf)

/-- Worker for `replaceAll`: `skip` counted-down characters belong to an
already-replaced occurrence of the pattern and are dropped; at `skip = 0` a
fresh occurrence of `pat` starting here is replaced by `repl`. -/
def replaceAllGo (pat repl : List Char) : Nat → List Char → List Char
  | _, [] => []
  | Nat.succ k, _ :: rest => replaceAllGo pat repl k rest
  | 0, c :: rest =>
    if pat ≠ [] ∧ pat.isPrefixOf (c :: rest) then
      repl ++ replaceAllGo pat repl (pat.length - 1) rest
    else
      c :: replaceAllGo pat repl 0 rest

/-- Global leftmost non-overlapping literal replacement of `pat` by `repl`,
the semantics of one `sed s/pat/repl/g` expression on a fixed string. -/
def replaceAll (pat repl s : List Char) : List Char :=
  replaceAllGo pat repl 0 s

/-- One `sed` substitution at the `String` level. -/
def sedReplace (pat repl content : String) : String :=
  ⟨replaceAll pat.data repl.data content.data⟩

/-- Lines 233-238 and 286-291: the per-variant replacement texts
(`auth_tag_var` / `print_tag_var` are the loaded texts when the variant
includes the token and the empty string otherwise) and the two chained sed
expressions applied to the source content, auth substitution first. -/
def candContent (cfg : Config) (v : Variant) (content : String) : String :=
  let auth_tag_var := if v.inclAuth then cfg.auth_tag_full else ""
  let print_tag_var := if v.inclPrint then cfg.print_tag_full else ""
  sedReplace cfg.PRINT_TAG print_tag_var (sedReplace cfg.AUTH_TAG auth_tag_var content)

/-- Amended-spec substitution (section 4.2 step 2, as amended): every literal
occurrence of the auth placeholder is replaced by the resolved auth text when
the variant includes the auth token and by the empty string (i.e. deleted)
when it does not, and the print placeholder is then treated likewise. -/
def specSubstAmended (cfg : Config) (v : Variant) (content : String) : String :=
  let authRepl := if v.inclAuth then cfg.auth_tag_full else ""
  let printRepl := if v.inclPrint then cfg.print_tag_full else ""
  sedReplace cfg.PRINT_TAG printRepl (sedReplace cfg.AUTH_TAG authRepl content)

/-- Generic render-tree path shape `stem ++ "-" ++ variantName ++ "." ++ ext`
(lines 243-245 and 311). -/
def artPath (stem vname ext : String) : String :=
  stem ++ "-" ++ vname ++ "." ++ ext

/-- Render-root-relative path of the tagged SVG `r_tag` (line 245). -/
def rtagPath (sf : SourceFile) (v : Variant) : String :=
  artPath sf.relStem v.name "svg"

/-- Render-root-relative path of the output file `r_out` (line 311); this is
also the string appended to the manifest (line 313). -/
def routPath (sf : SourceFile) (v : Variant) (ftype : String) : String :=
  artPath sf.relStem v.name ftype

/-- Lines 286-304: run sed into a temp file, then compare with the existing
tagged SVG; copy over (updating the modification time) only when the file is
absent or its content differs. -/
def substStep (cfg : Config) (sf : SourceFile) (v : Variant) (st : RState) : RState :=
  let cand := candContent cfg v sf.content
  let rtag := rtagPath sf v
  match st.fs rtag with
  | some fi =>
    if fi.content = cand then st
    else
      { st with
        fs := writeFS st.fs rtag ⟨cand, st.now⟩
        now := st.now + 1
        trace := st.trace ++ [Event.fileWrite rtag] }
  | none =>
    { st with
      fs := writeFS st.fs rtag ⟨cand, st.now⟩
      now := st.now + 1
      trace := st.trace ++ [Event.fileWrite rtag] }

/-- Lines 326-329: renderer command-line fragment for one output file. -/
def outInstr (ftype rout : String) : List String :=
  if ftype = "png" then ["-e", rout]
  else if ftype = "pdf" then ["-A", rout]
  else []

/-- One pass of the output-format loop (lines 309-329) carried over an
accumulator `(state, renderargs, pending output paths)`: append the output
path to the manifest, then either skip (output at least as new as the tagged
SVG) or add the render instruction for this format. -/
def formatStep (sf : SourceFile) (v : Variant) (tagM : Nat) (ftype : String)
    (acc : RState × List String × List String) : RState × List String × List String :=
  let st := acc.1
  let args := acc.2.1
  let outs := acc.2.2
  let rout := routPath sf v ftype
  let st' := { st with manifest := manifestAppend st.manifest sf.relStem rout }
  match st.fs rout with
  | some fi =>
    if tagM ≤ fi.mtime then
      ({ st' with skipcount := st'.skipcount + 1 }, args, outs)
    else
      ({ st' with updatecount := st'.updatecount + 1 }, args ++ outInstr ftype rout, outs ++ [rout])
  | none =>
    ({ st' with updatecount := st'.updatecount + 1 }, args ++ outInstr ftype rout, outs ++ [rout])

/-- The output-format loop over `FORMATS` (lines 306-329). -/
def formatsFold (sf : SourceFile) (v : Variant) (tagM : Nat) (st1 : RState) :
    RState × List String × List String :=
  FORMATS.foldl (fun acc ftype => formatStep sf v tagM ftype acc) (st1, [], [])

/-- One output file produced by the backend, stamped with the current clock. -/
def bwrite1 (p : String) (st : RState) : RState :=
  { st with
    fs := writeFS st.fs p ⟨"render:" ++ p, st.now⟩
    now := st.now + 1
    trace := st.trace ++ [Event.fileWrite p] }

/-- Modelled from the spec: the external rendering backend, once invoked,
produces each requested output file (section 4.4 and section 6, "Rendering
backend"). -/
def backendWrite (outs : List String) (st : RState) : RState :=
  outs.foldl (fun st p => bwrite1 p st) st

/-- Append events to the trace of a state. -/
def addTrace (st : RState) (l : List Event) : RState :=
  ⟨st.fs, st.now, st.manifest, st.skipcount, st.updatecount, st.notagcount, st.trace ++ l⟩

/-- Lines 331-339: when `renderargs` is non-empty, invoke the backend exactly
once with `[BACKEND_PATH, "-z"] ++ renderargs ++ ["-f", r_tag]`; otherwise do
nothing. -/
def backendStep (cfg : Config) (rtag : String)
    (acc : RState × List String × List String) : RState :=
  match acc with
  | (st2, args, outs) =>
    if args.length ≠ 0 then
      backendWrite outs
        (addTrace st2 [Event.backendCall ([cfg.BACKEND_PATH, "-z"] ++ args ++ ["-f", rtag])])
    else st2

/-- The whole per-variant body of the loop at lines 231-339: gating checks,
substitution step, output-format loop, backend invocation. -/
def processVariant (cfg : Config) (sf : SourceFile) (v : Variant) (st : RState) : RState :=
  if v.inclAuth && noAuthTag cfg sf then { st with notagcount := st.notagcount + 1 }
  else if v.inclPrint && noPrintTag cfg sf then { st with notagcount := st.notagcount + 1 }
  else
    backendStep cfg (rtagPath sf v)
      (formatsFold sf v (mtimeAt (substStep cfg sf v st).fs (rtagPath sf v))
        (substStep cfg sf v st))

/-- Replace the manifest dict of a state. -/
def setManifest (st : RState) (m : Manifest) : RState :=
  ⟨st.fs, st.now, m, st.skipcount, st.updatecount, st.notagcount, st.trace⟩

/-- The per-source-file body of the loop at lines 217-339: initialise the
manifest entry (line 227), then process every variant. -/
def processFile (cfg : Config) (sf : SourceFile) (st : RState) : RState :=
  VARIANTS.foldl (fun st v => processVariant cfg sf v st)
    (setManifest st (manifestInit st.manifest sf.relStem))

/-- The main loop over all discovered source files. -/
def runPipeline (cfg : Config) (files : List SourceFile) (st0 : RState) : RState :=
  files.foldl (fun st sf => processFile cfg sf st) st0

/-- Three-way lexicographic comparison of character lists by code point, the
order Python's `sorted` uses on strings. -/
def strCmp : List Char → List Char → Ordering
  | [], [] => Ordering.eq
  | [], _ :: _ => Ordering.lt
  | _ :: _, [] => Ordering.gt
  | c :: cs, d :: ds =>
    if c.toNat < d.toNat then Ordering.lt
    else if d.toNat < c.toNat then Ordering.gt
    else strCmp cs ds

/-- Boolean string order `a ≤ b` by code-point lexicographic comparison. -/
def strLeB (a b : String) : Bool :=
  strCmp a.data b.data ≠ Ordering.gt

/-- Sorted insertion of a key into a key list. -/
def insertKey (k : String) : List String → List String
  | [] => [k]
  | x :: xs => if strLeB k x then k :: x :: xs else x :: insertKey k xs

/-- `sorted(manifest.keys())` on line 344: insertion sort by the code-point
lexicographic string order. -/
def sortKeys : List String → List String
  | [] => []
  | k :: ks => insertKey k (sortKeys ks)

/-- Lines 343-345: the serialised manifest, a JSON array of single-key objects
`{k: manifest[k]}` in sorted key order, represented structurally as the list
of key/value pairs. -/
def manifestOutput (m : Manifest) : Manifest :=
  (sortKeys (m.map Prod.fst)).map (fun k => (k, (lookupM m k).getD []))

/-- A complete process run: the main loop followed by the unconditional
manifest serialisation (lines 343-345), recorded as the final trace event. -/
def fullRun (cfg : Config) (files : List SourceFile) (st0 : RState) : RState :=
  let st := runPipeline cfg files st0
  { st with trace := st.trace ++ [Event.manifestWrite (manifestOutput st.manifest)] }

/-- The in-memory state of a freshly started process over an existing render
tree: same filesystem and clock, empty manifest, zeroed counters, empty trace. -/
def freshProcess (st : RState) : RState :=
  ⟨st.fs, st.now, [], 0, 0, 0, []⟩

/-- Well-formed state: every modification time on disk is in the past. -/
def Wf (st : RState) : Prop :=
  ∀ p fi, st.fs p = some fi → fi.mtime < st.now

/-- Regeneration condition of lines 316-323 in isolation: the file at `rout`
is absent, or strictly older than the reference time `tagM`. -/
def regenCond (fs : String → Option FileInfo) (tagM : Nat) (rout : String) : Bool :=
  match fs rout with
  | some ofi => decide (ofi.mtime < tagM)
  | none => true

/-- The format needs regeneration (lines 316-323, negated skip condition):
the output file is absent or strictly older than the tagged SVG. -/
def needsRegenB (sf : SourceFile) (v : Variant) (st1 : RState) (ftype : String) : Bool :=
  regenCond st1.fs (mtimeAt st1.fs (rtagPath sf v)) (routPath sf v ftype)

/-- Manifest entries contributed by one variant of one file: nothing when the
variant is skipped, one output path per format otherwise. -/
def variantOutputs (cfg : Config) (sf : SourceFile) (v : Variant) : List String :=
  if skippedVariant cfg sf v then [] else FORMATS.map (fun f => routPath sf v f)

/-- All manifest entries contributed by one file, in variant-then-format order. -/
def expectedOutputs (cfg : Config) (sf : SourceFile) : List String :=
  (VARIANTS.map (fun v => variantOutputs cfg sf v)).flatten

/-- The manifest effect of one variant, isolated from the filesystem. -/
def variantManifestAppends (cfg : Config) (sf : SourceFile) (v : Variant) (m : Manifest) :
    Manifest :=
  if skippedVariant cfg sf v then m
  else
    manifestAppend (manifestAppend m sf.relStem (routPath sf v "pdf"))
      sf.relStem (routPath sf v "png")

/-- The manifest effect of one file, isolated from the filesystem. -/
def fileManifest (cfg : Config) (sf : SourceFile) (m : Manifest) : Manifest :=
  VARIANTS.foldl (fun m v => variantManifestAppends cfg sf v m)
    (manifestInit m sf.relStem)

/-- The manifest effect of the whole run, isolated from the filesystem. -/
def runManifest (cfg : Config) (files : List SourceFile) (m0 : Manifest) : Manifest :=
  files.foldl (fun m sf => fileManifest cfg sf m) m0

/-- The render-tree paths owned by one (source file, variant) pair: its tagged
SVG and its output files. -/
def ownPath (sf : SourceFile) (v : Variant) (p : String) : Prop :=
  p = rtagPath sf v ∨ ∃ f ∈ FORMATS, p = routPath sf v f

/-- A (file, variant) pair is settled in a filesystem: either it is skipped by
the gating checks, or its tagged SVG is on disk with exactly the substituted
content and every output file is at least as new as the tagged SVG. -/
def settledVar (cfg : Config) (sf : SourceFile) (v : Variant)
    (fs : String → Option FileInfo) : Prop :=
  skippedVariant cfg sf v = true ∨
    ∃ tfi, fs (rtagPath sf v) = some tfi ∧
      tfi.content = candContent cfg v sf.content ∧
      ∀ f ∈ FORMATS, ∃ ofi, fs (routPath sf v f) = some ofi ∧ tfi.mtime ≤ ofi.mtime

/-- A file is settled when all its variants are. -/
def SettledFile (cfg : Config) (sf : SourceFile) (fs : String → Option FileInfo) : Prop :=
  ∀ v ∈ VARIANTS, settledVar cfg sf v fs

/-- Is this trace event the manifest serialisation? -/
def isManifestEvent : Event → Bool
  | Event.manifestWrite _ => true
  | _ => false

/-- Is this trace event a backend invocation? -/
def isBackendCallEvent : Event → Bool
  | Event.backendCall _ => true
  | _ => false

/-- The events a computation appended to the trace of `st`. -/
def newEvents (st st' : RState) : List Event :=
  st'.trace.drop st.trace.length

/-- A concrete configuration with the script's default placeholder tokens. -/
def cfg0 : Config :=
  ⟨"PPAU_AUTH_TAG", "PPAU_PRINT_TAG", "Authorised by A. Person, Sometown.",
    "Printed by P. Printer, Sometown.", "inkscape"⟩

/-- A concrete source file containing both placeholders. -/
def sfBoth : SourceFile :=
  ⟨"logo", "<svg>PPAU_AUTH_TAG PPAU_PRINT_TAG</svg>"⟩

/-- A concrete source file containing only the print placeholder. -/
def sfPrintOnly : SourceFile :=
  ⟨"poster", "<svg>PPAU_PRINT_TAG</svg>"⟩

/-- The `auth` variant. -/
def vAuth : Variant := ⟨"auth", true, false⟩

/-- The `both` variant. -/
def vBoth : Variant := ⟨"both", true, true⟩

/-- The `none` variant. -/
def vNone : Variant := ⟨"none", false, false⟩

/-- The empty initial state: no render tree yet, clock at 0. -/
def emptyState : RState :=
  ⟨fun _ => none, 0, [], 0, 0, 0, []⟩

/-! ### String and path lemmas -/

theorem str_data_append (a b : String) : (a ++ b).data = a.data ++ b.data :=
  String.data_append a b

theorem str_mk_data (s : String) : String.mk s.data = s := by
  cases s
  rfl

theorem char_toNat_inj {a b : Char} (h : a.toNat = b.toNat) : a = b := by
  cases a
  cases b
  simp only [Char.toNat] at h
  congr 1
  exact UInt32.toNat.inj h

theorem artPath_data (stem vname ext : String) :
    (artPath stem vname ext).data =
      stem.data ++ ('-' :: (vname.data ++ ('.' :: ext.data))) := by
  simp [artPath, str_data_append]

theorem artPath_inj {s₁ n₁ e₁ s₂ n₂ e₂ : String}
    (hn : n₁.data.length = n₂.data.length) (he : e₁.data.length = e₂.data.length)
    (h : artPath s₁ n₁ e₁ = artPath s₂ n₂ e₂) : s₁ = s₂ ∧ n₁ = n₂ ∧ e₁ = e₂ := by
  have hd := congrArg String.data h
  rw [artPath_data, artPath_data] at hd
  have hlen : ('-' :: (n₁.data ++ ('.' :: e₁.data))).length
      = ('-' :: (n₂.data ++ ('.' :: e₂.data))).length := by
    simp [hn, he]
  obtain ⟨hs, hrest⟩ := List.append_inj' hd hlen
  have hrest' := List.tail_eq_of_cons_eq hrest
  obtain ⟨hnm, hext⟩ := List.append_inj hrest' hn
  have hext' := List.tail_eq_of_cons_eq hext
  exact ⟨String.ext hs, String.ext hnm, String.ext hext'⟩

theorem artPath_ext_inj {stem n e₁ e₂ : String}
    (h : artPath stem n e₁ = artPath stem n e₂) : e₁ = e₂ := by
  have hd := congrArg String.data h
  rw [artPath_data, artPath_data] at hd
  have h1 := List.append_cancel_left hd
  have h2 := List.append_cancel_left (List.tail_eq_of_cons_eq h1)
  exact String.ext (List.tail_eq_of_cons_eq h2)

theorem rtag_ne_rout (sf : SourceFile) (v : Variant) {f : String} (hf : f ∈ FORMATS) :
    rtagPath sf v ≠ routPath sf v f := by
  intro h
  have he := artPath_ext_inj h
  simp only [FORMATS, List.mem_cons, List.mem_singleton] at hf
  rcases hf with rfl | hf
  · exact absurd he (by decide)
  · rcases hf with rfl | hf
    · exact absurd he (by decide)
    · exact absurd hf (by simp)

theorem rout_format_inj (sf : SourceFile) (v : Variant) {f₁ f₂ : String}
    (h : routPath sf v f₁ = routPath sf v f₂) : f₁ = f₂ :=
  artPath_ext_inj h

theorem variant_name_length {v : Variant} (hv : v ∈ VARIANTS) : v.name.data.length = 4 := by
  simp only [VARIANTS, List.mem_cons, List.mem_singleton] at hv
  rcases hv with rfl | rfl | rfl | h
  · rfl
  · rfl
  · rfl
  · exact absurd h (by simp)

theorem variant_name_inj {v v' : Variant} (hv : v ∈ VARIANTS) (hv' : v' ∈ VARIANTS)
    (h : v.name = v'.name) : v = v' := by
  simp only [VARIANTS, List.mem_cons, List.mem_singleton] at hv hv'
  rcases hv with rfl | rfl | rfl | hv
  all_goals try exact absurd hv (by simp)
  all_goals rcases hv' with rfl | rfl | rfl | hv'
  all_goals first
    | rfl
    | exact absurd hv' (by simp)
    | exact absurd h (by decide)

theorem format_length {f : String} (hf : f ∈ FORMATS) : f.data.length = 3 := by
  simp only [FORMATS, List.mem_cons, List.mem_singleton] at hf
  rcases hf with rfl | rfl | h
  · rfl
  · rfl
  · exact absurd h (by simp)

theorem ownPath_ext {sf : SourceFile} {v : Variant} {p : String} (h : ownPath sf v p) :
    ∃ e : String, e.data.length = 3 ∧ p = artPath sf.relStem v.name e := by
  rcases h with h | ⟨f, hf, h⟩
  · exact ⟨"svg", rfl, h⟩
  · exact ⟨f, format_length hf, h⟩

theorem ownPath_inj {sf sf' : SourceFile} {v v' : Variant} {p : String}
    (hv : v ∈ VARIANTS) (hv' : v' ∈ VARIANTS)
    (h : ownPath sf v p) (h' : ownPath sf' v' p) :
    sf.relStem = sf'.relStem ∧ v = v' := by
  obtain ⟨e, he, rfl⟩ := ownPath_ext h
  obtain ⟨e', he', hp⟩ := ownPath_ext h'
  have := @artPath_inj sf.relStem v.name e sf'.relStem v'.name e'
    (by rw [variant_name_length hv, variant_name_length hv'])
    (by rw [he, he']) hp
  exact ⟨this.1, variant_name_inj hv hv' this.2.1⟩

/-! ### Lemmas about literal replacement -/

theorem replaceAllGo_skip (pat repl : List Char) :
    ∀ (s : List Char) (k : Nat),
      replaceAllGo pat repl k s = replaceAllGo pat repl 0 (s.drop k) := by
  intro s
  induction s with
  | nil => intro k; cases k <;> rfl
  | cons c rest ih =>
    intro k
    cases k with
    | zero => rfl
    | succ k => simpa [replaceAllGo] using ih k

theorem replaceAll_nil (pat repl : List Char) : replaceAll pat repl [] = [] := rfl

theorem replaceAll_cons (pat repl : List Char) (c : Char) (rest : List Char) :
    replaceAll pat repl (c :: rest) =
      if pat ≠ [] ∧ pat.isPrefixOf (c :: rest) then
        repl ++ replaceAll pat repl ((c :: rest).drop pat.length)
      else c :: replaceAll pat repl rest := by
  show replaceAllGo pat repl 0 (c :: rest) = _
  rw [replaceAllGo]
  split
  next h =>
    rw [replaceAllGo_skip]
    have hp : pat ≠ [] := h.1
    obtain ⟨m, hm⟩ : ∃ m, pat.length = m + 1 := by
      cases hpat : pat with
      | nil => exact absurd hpat hp
      | cons a l => exact ⟨l.length, by simp⟩
    rw [hm]
    rfl
  next => rfl

theorem replaceAll_self_aux (pat : List Char) :
    ∀ (n : Nat) (s : List Char), s.length ≤ n → replaceAll pat pat s = s := by
  intro n
  induction n with
  | zero =>
    intro s hs
    have : s = [] := List.eq_nil_of_length_eq_zero (Nat.le_zero.mp hs)
    subst this
    rfl
  | succ n ih =>
    intro s hs
    cases s with
    | nil => rfl
    | cons c rest =>
      rw [replaceAll_cons]
      split
      next h =>
        obtain ⟨t, ht⟩ := List.isPrefixOf_iff_prefix.mp h.2
        have hp : 1 ≤ pat.length := by
          cases hpat : pat with
          | nil => exact absurd hpat h.1
          | cons a l => simp
        have hlen : t.length ≤ n := by
          have := congrArg List.length ht
          simp only [List.length_append, List.length_cons] at this hs
          omega
        rw [← ht, List.drop_left, ih t hlen]
      next =>
        rw [ih rest (by simpa using Nat.le_of_succ_le_succ hs)]

theorem replaceAll_self (pat s : List Char) : replaceAll pat pat s = s :=
  replaceAll_self_aux pat s.length s le_rfl

theorem sedReplace_self (tag content : String) : sedReplace tag tag content = content := by
  unfold sedReplace
  rw [replaceAll_self]

/-! ### Filesystem write lemmas -/

theorem writeFS_same (fs : String → Option FileInfo) (p : String) (fi : FileInfo) :
    writeFS fs p fi p = some fi := by
  simp [writeFS]

theorem writeFS_ne (fs : String → Option FileInfo) {p q : String} (fi : FileInfo)
    (h : q ≠ p) : writeFS fs p fi q = fs q := by
  simp [writeFS, h]

/-! ### Substitution-step lemmas (lines 286-304) -/

theorem substStep_stable {cfg : Config} {sf : SourceFile} {v : Variant} {st : RState}
    {fi : FileInfo} (h : st.fs (rtagPath sf v) = some fi)
    (hc : fi.content = candContent cfg v sf.content) :
    substStep cfg sf v st = st := by
  simp [substStep, h, hc]

theorem substStep_write_none {cfg : Config} {sf : SourceFile} {v : Variant} {st : RState}
    (h : st.fs (rtagPath sf v) = none) :
    substStep cfg sf v st =
      { st with
        fs := writeFS st.fs (rtagPath sf v) ⟨candContent cfg v sf.content, st.now⟩
        now := st.now + 1
        trace := st.trace ++ [Event.fileWrite (rtagPath sf v)] } := by
  simp [substStep, h]

theorem substStep_write_diff {cfg : Config} {sf : SourceFile} {v : Variant} {st : RState}
    {fi : FileInfo} (h : st.fs (rtagPath sf v) = some fi)
    (hc : fi.content ≠ candContent cfg v sf.content) :
    substStep cfg sf v st =
      { st with
        fs := writeFS st.fs (rtagPath sf v) ⟨candContent cfg v sf.content, st.now⟩
        now := st.now + 1
        trace := st.trace ++ [Event.fileWrite (rtagPath sf v)] } := by
  simp [substStep, h, hc]

theorem substStep_manifest (cfg : Config) (sf : SourceFile) (v : Variant) (st : RState) :
    (substStep cfg sf v st).manifest = st.manifest := by
  unfold substStep
  dsimp only
  split
  · split <;> rfl
  · rfl

theorem substStep_now_mono (cfg : Config) (sf : SourceFile) (v : Variant) (st : RState) :
    st.now ≤ (substStep cfg sf v st).now := by
  unfold substStep
  dsimp only
  split
  · split
    · exact le_rfl
    · exact Nat.le_succ _
  · exact Nat.le_succ _

theorem substStep_fs_frame (cfg : Config) (sf : SourceFile) (v : Variant) (st : RState)
    {p : String} (hp : p ≠ rtagPath sf v) :
    (substStep cfg sf v st).fs p = st.fs p := by
  unfold substStep
  dsimp only
  split
  · split
    · rfl
    · exact writeFS_ne _ _ hp
  · exact writeFS_ne _ _ hp

theorem substStep_rtag {cfg : Config} {sf : SourceFile} {v : Variant} {st : RState}
    (hwf : Wf st) :
    ∃ tfi, (substStep cfg sf v st).fs (rtagPath sf v) = some tfi ∧
      tfi.content = candContent cfg v sf.content ∧
      tfi.mtime < (substStep cfg sf v st).now := by
  cases h : st.fs (rtagPath sf v) with
  | some fi =>
    by_cases hc : fi.content = candContent cfg v sf.content
    · rw [substStep_stable h hc]
      exact ⟨fi, h, hc, hwf _ _ h⟩
    · rw [substStep_write_diff h hc]
      exact ⟨⟨candContent cfg v sf.content, st.now⟩, writeFS_same _ _ _, rfl, Nat.lt_succ_self _⟩
  | none =>
    rw [substStep_write_none h]
    exact ⟨⟨candContent cfg v sf.content, st.now⟩, writeFS_same _ _ _, rfl, Nat.lt_succ_self _⟩

theorem substStep_Wf {cfg : Config} {sf : SourceFile} {v : Variant} {st : RState}
    (hwf : Wf st) : Wf (substStep cfg sf v st) := by
  cases h : st.fs (rtagPath sf v) with
  | some fi =>
    by_cases hc : fi.content = candContent cfg v sf.content
    · rw [substStep_stable h hc]; exact hwf
    · rw [substStep_write_diff h hc]
      intro p pfi hp
      dsimp only at hp ⊢
      by_cases hpr : p = rtagPath sf v
      · subst hpr
        rw [writeFS_same] at hp
        cases hp
        exact Nat.lt_succ_self _
      · rw [writeFS_ne _ _ hpr] at hp
        exact Nat.lt_succ_of_lt (hwf _ _ hp)
  | none =>
    rw [substStep_write_none h]
    intro p pfi hp
    dsimp only at hp ⊢
    by_cases hpr : p = rtagPath sf v
    · subst hpr
      rw [writeFS_same] at hp
      cases hp
      exact Nat.lt_succ_self _
    · rw [writeFS_ne _ _ hpr] at hp
      exact Nat.lt_succ_of_lt (hwf _ _ hp)

theorem substStep_trace (cfg : Config) (sf : SourceFile) (v : Variant) (st : RState) :
    (substStep cfg sf v st).trace = st.trace ∨
      (substStep cfg sf v st).trace = st.trace ++ [Event.fileWrite (rtagPath sf v)] := by
  unfold substStep
  dsimp only
  split
  · split
    · exact Or.inl rfl
    · exact Or.inr rfl
  · exact Or.inr rfl

/-! ### Format-loop lemmas (lines 306-329) -/

theorem formatStep_fs (sf : SourceFile) (v : Variant) (tagM : Nat) (ftype : String)
    (acc : RState × List String × List String) :
    (formatStep sf v tagM ftype acc).1.fs = acc.1.fs := by
  unfold formatStep
  dsimp only
  split
  · split <;> rfl
  · rfl

theorem formatStep_trace (sf : SourceFile) (v : Variant) (tagM : Nat) (ftype : String)
    (acc : RState × List String × List String) :
    (formatStep sf v tagM ftype acc).1.trace = acc.1.trace := by
  unfold formatStep
  dsimp only
  split
  · split <;> rfl
  · rfl

theorem formatStep_now (sf : SourceFile) (v : Variant) (tagM : Nat) (ftype : String)
    (acc : RState × List String × List String) :
    (formatStep sf v tagM ftype acc).1.now = acc.1.now := by
  unfold formatStep
  dsimp only
  split
  · split <;> rfl
  · rfl

theorem formatStep_manifest (sf : SourceFile) (v : Variant) (tagM : Nat) (ftype : String)
    (acc : RState × List String × List String) :
    (formatStep sf v tagM ftype acc).1.manifest
      = manifestAppend acc.1.manifest sf.relStem (routPath sf v ftype) := by
  unfold formatStep
  dsimp only
  split
  · split <;> rfl
  · rfl

theorem formatStep_acc (sf : SourceFile) (v : Variant) (tagM : Nat) (ftype : String)
    (acc : RState × List String × List String) :
    (formatStep sf v tagM ftype acc).2.1
        = acc.2.1 ++ (if regenCond acc.1.fs tagM (routPath sf v ftype) = true
            then outInstr ftype (routPath sf v ftype) else []) ∧
    (formatStep sf v tagM ftype acc).2.2
        = acc.2.2 ++ (if regenCond acc.1.fs tagM (routPath sf v ftype) = true
            then [routPath sf v ftype] else []) := by
  unfold formatStep regenCond
  cases h : acc.1.fs (routPath sf v ftype) with
  | some fi =>
    simp only [h]
    by_cases hle : tagM ≤ fi.mtime
    · simp [hle, Nat.not_lt.mpr hle]
    · simp [hle, Nat.lt_of_not_le hle]
  | none => simp [h]

theorem formatsFold_eq (sf : SourceFile) (v : Variant) (tagM : Nat) (st1 : RState) :
    formatsFold sf v tagM st1
      = formatStep sf v tagM "png" (formatStep sf v tagM "pdf" (st1, [], [])) := by
  simp [formatsFold, FORMATS]

theorem formatsFold_fs (sf : SourceFile) (v : Variant) (tagM : Nat) (st1 : RState) :
    (formatsFold sf v tagM st1).1.fs = st1.fs := by
  rw [formatsFold_eq, formatStep_fs, formatStep_fs]

theorem formatsFold_trace (sf : SourceFile) (v : Variant) (tagM : Nat) (st1 : RState) :
    (formatsFold sf v tagM st1).1.trace = st1.trace := by
  rw [formatsFold_eq, formatStep_trace, formatStep_trace]

theorem formatsFold_now (sf : SourceFile) (v : Variant) (tagM : Nat) (st1 : RState) :
    (formatsFold sf v tagM st1).1.now = st1.now := by
  rw [formatsFold_eq, formatStep_now, formatStep_now]

theorem formatsFold_manifest (sf : SourceFile) (v : Variant) (tagM : Nat) (st1 : RState) :
    (formatsFold sf v tagM st1).1.manifest
      = manifestAppend (manifestAppend st1.manifest sf.relStem (routPath sf v "pdf"))
          sf.relStem (routPath sf v "png") := by
  rw [formatsFold_eq, formatStep_manifest, formatStep_manifest]

theorem formatsFold_args (sf : SourceFile) (v : Variant) (tagM : Nat) (st1 : RState) :
    (formatsFold sf v tagM st1).2.1
      = (if regenCond st1.fs tagM (routPath sf v "pdf") = true
          then outInstr "pdf" (routPath sf v "pdf") else [])
        ++ (if regenCond st1.fs tagM (routPath sf v "png") = true
          then outInstr "png" (routPath sf v "png") else []) := by
  rw [formatsFold_eq]
  have h1 := formatStep_acc sf v tagM "pdf" (st1, [], [])
  have h2 := formatStep_acc sf v tagM "png" (formatStep sf v tagM "pdf" (st1, [], []))
  rw [h2.1, h1.1, formatStep_fs]
  simp

theorem formatsFold_outs (sf : SourceFile) (v : Variant) (tagM : Nat) (st1 : RState) :
    (formatsFold sf v tagM st1).2.2
      = (if regenCond st1.fs tagM (routPath sf v "pdf") = true
          then [routPath sf v "pdf"] else [])
        ++ (if regenCond st1.fs tagM (routPath sf v "png") = true
          then [routPath sf v "png"] else []) := by
  rw [formatsFold_eq]
  have h1 := formatStep_acc sf v tagM "pdf" (st1, [], [])
  have h2 := formatStep_acc sf v tagM "png" (formatStep sf v tagM "pdf" (st1, [], []))
  rw [h2.2, h1.2, formatStep_fs]
  simp

/-! ### Backend lemmas -/

theorem backendWrite_nil (st : RState) : backendWrite [] st = st := rfl

theorem backendWrite_cons (q : String) (rest : List String) (st : RState) :
    backendWrite (q :: rest) st = backendWrite rest (bwrite1 q st) := rfl

theorem backendWrite_frame (outs : List String) {p : String} :
    ∀ st : RState, p ∉ outs → (backendWrite outs st).fs p = st.fs p := by
  induction outs with
  | nil => intro st _; rfl
  | cons q rest ih =>
    intro st hp
    rw [backendWrite_cons, ih (bwrite1 q st) (fun h => hp (List.mem_cons_of_mem _ h))]
    exact writeFS_ne _ _ (fun h => hp (h ▸ List.mem_cons_self _ _))

theorem backendWrite_now_mono (outs : List String) :
    ∀ st : RState, st.now ≤ (backendWrite outs st).now := by
  induction outs with
  | nil => intro st; exact le_rfl
  | cons q rest ih =>
    intro st
    rw [backendWrite_cons]
    exact Nat.le_trans (Nat.le_succ _) (ih (bwrite1 q st))

theorem backendWrite_mem (outs : List String) {p : String} :
    ∀ st : RState, p ∈ outs →
      ∃ fi, (backendWrite outs st).fs p = some fi ∧ st.now ≤ fi.mtime := by
  induction outs with
  | nil => intro st hp; exact absurd hp (List.not_mem_nil p)
  | cons q rest ih =>
    intro st hp
    rw [backendWrite_cons]
    by_cases hmem : p ∈ rest
    · obtain ⟨fi, hfi, hle⟩ := ih (bwrite1 q st) hmem
      exact ⟨fi, hfi, Nat.le_trans (Nat.le_succ _) hle⟩
    · have hq : p = q := by
        rcases List.mem_cons.mp hp with h | h
        · exact h
        · exact absurd h hmem
      subst hq
      rw [backendWrite_frame rest _ hmem]
      exact ⟨⟨"render:" ++ p, st.now⟩, writeFS_same _ _ _, le_rfl⟩

theorem backendWrite_Wf (outs : List String) :
    ∀ st : RState, Wf st → Wf (backendWrite outs st) := by
  induction outs with
  | nil => intro st hwf; exact hwf
  | cons q rest ih =>
    intro st hwf
    rw [backendWrite_cons]
    refine ih (bwrite1 q st) ?_
    intro p fi hp
    dsimp only [bwrite1] at hp ⊢
    by_cases hpq : p = q
    · subst hpq
      rw [writeFS_same] at hp
      cases hp
      exact Nat.lt_succ_self _
    · rw [writeFS_ne _ _ hpq] at hp
      exact Nat.lt_succ_of_lt (hwf _ _ hp)

theorem backendWrite_manifest (outs : List String) :
    ∀ st : RState, (backendWrite outs st).manifest = st.manifest := by
  induction outs with
  | nil => intro st; rfl
  | cons q rest ih =>
    intro st
    rw [backendWrite_cons, ih (bwrite1 q st)]
    rfl

theorem backendWrite_trace (outs : List String) :
    ∀ st : RState, (backendWrite outs st).trace = st.trace ++ outs.map Event.fileWrite := by
  induction outs with
  | nil => intro st; simp [backendWrite_nil]
  | cons q rest ih =>
    intro st
    rw [backendWrite_cons, ih (bwrite1 q st)]
    simp [bwrite1]

theorem backendStep_empty (cfg : Config) (rtag : String)
    (acc : RState × List String × List String) (h : acc.2.1 = []) :
    backendStep cfg rtag acc = acc.1 := by
  obtain ⟨st2, args, outs⟩ := acc
  simp only at h
  simp [backendStep, h]

theorem backendStep_call (cfg : Config) (rtag : String)
    (acc : RState × List String × List String) (h : acc.2.1 ≠ []) :
    backendStep cfg rtag acc =
      backendWrite acc.2.2
        (addTrace acc.1
          [Event.backendCall ([cfg.BACKEND_PATH, "-z"] ++ acc.2.1 ++ ["-f", rtag])]) := by
  obtain ⟨st2, args, outs⟩ := acc
  simp only at h
  simp [backendStep, h, List.length_eq_zero]

theorem addTrace_fs (st : RState) (l : List Event) : (addTrace st l).fs = st.fs := rfl

theorem addTrace_now (st : RState) (l : List Event) : (addTrace st l).now = st.now := rfl

theorem addTrace_manifest (st : RState) (l : List Event) :
    (addTrace st l).manifest = st.manifest := rfl

theorem addTrace_trace (st : RState) (l : List Event) :
    (addTrace st l).trace = st.trace ++ l := rfl

theorem addTrace_Wf {st : RState} (l : List Event) (h : Wf st) : Wf (addTrace st l) := h

theorem backendStep_manifest (cfg : Config) (rtag : String)
    (acc : RState × List String × List String) :
    (backendStep cfg rtag acc).manifest = acc.1.manifest := by
  by_cases h : acc.2.1 = []
  · rw [backendStep_empty _ _ _ h]
  · rw [backendStep_call _ _ _ h, backendWrite_manifest, addTrace_manifest]

theorem backendStep_now_mono (cfg : Config) (rtag : String)
    (acc : RState × List String × List String) :
    acc.1.now ≤ (backendStep cfg rtag acc).now := by
  by_cases h : acc.2.1 = []
  · rw [backendStep_empty _ _ _ h]
  · rw [backendStep_call _ _ _ h]
    have := backendWrite_now_mono acc.2.2
      (addTrace acc.1 [Event.backendCall ([cfg.BACKEND_PATH, "-z"] ++ acc.2.1 ++ ["-f", rtag])])
    rw [addTrace_now] at this
    exact this

theorem backendStep_Wf (cfg : Config) (rtag : String)
    (acc : RState × List String × List String) (hwf : Wf acc.1) :
    Wf (backendStep cfg rtag acc) := by
  by_cases h : acc.2.1 = []
  · rw [backendStep_empty _ _ _ h]; exact hwf
  · rw [backendStep_call _ _ _ h]
    exact backendWrite_Wf _ _ (addTrace_Wf _ hwf)

theorem backendStep_frame (cfg : Config) (rtag : String)
    (acc : RState × List String × List String) {p : String} (hp : p ∉ acc.2.2) :
    (backendStep cfg rtag acc).fs p = acc.1.fs p := by
  by_cases h : acc.2.1 = []
  · rw [backendStep_empty _ _ _ h]
  · rw [backendStep_call _ _ _ h, backendWrite_frame _ _ hp, addTrace_fs]

theorem backendStep_mem (cfg : Config) (rtag : String)
    (acc : RState × List String × List String) {p : String} (hp : p ∈ acc.2.2)
    (hne : acc.2.1 ≠ []) :
    ∃ fi, (backendStep cfg rtag acc).fs p = some fi ∧ acc.1.now ≤ fi.mtime := by
  rw [backendStep_call _ _ _ hne]
  have := backendWrite_mem acc.2.2
    (addTrace acc.1 [Event.backendCall ([cfg.BACKEND_PATH, "-z"] ++ acc.2.1 ++ ["-f", rtag])]) hp
  rw [addTrace_now] at this
  exact this

theorem backendStep_trace (cfg : Config) (rtag : String)
    (acc : RState × List String × List String) :
    (backendStep cfg rtag acc).trace = acc.1.trace ∨
      (backendStep cfg rtag acc).trace =
        acc.1.trace
          ++ Event.backendCall ([cfg.BACKEND_PATH, "-z"] ++ acc.2.1 ++ ["-f", rtag])
            :: acc.2.2.map Event.fileWrite := by
  by_cases h : acc.2.1 = []
  · rw [backendStep_empty _ _ _ h]; exact Or.inl rfl
  · rw [backendStep_call _ _ _ h, backendWrite_trace, addTrace_trace]
    right
    simp

/-! ### Per-variant lemmas (lines 231-339) -/

theorem pdf_mem_FORMATS : "pdf" ∈ FORMATS := by simp [FORMATS]

theorem png_mem_FORMATS : "png" ∈ FORMATS := by simp [FORMATS]

theorem FORMATS_cases {f : String} (hf : f ∈ FORMATS) : f = "pdf" ∨ f = "png" := by
  simpa [FORMATS] using hf

theorem rout_pdf_ne_png (sf : SourceFile) (v : Variant) :
    routPath sf v "pdf" ≠ routPath sf v "png" := by
  intro h
  exact absurd (rout_format_inj sf v h) (by decide)

theorem outInstr_pdf (r : String) : outInstr "pdf" r = ["-A", r] := by simp [outInstr]

theorem outInstr_png (r : String) : outInstr "png" r = ["-e", r] := by simp [outInstr]

theorem regenCond_false_elim {fs : String → Option FileInfo} {tagM : Nat} {rout : String}
    (h : regenCond fs tagM rout = false) :
    ∃ ofi, fs rout = some ofi ∧ tagM ≤ ofi.mtime := by
  unfold regenCond at h
  split at h
  next ofi hofi => exact ⟨ofi, hofi, Nat.not_lt.mp (by simpa using h)⟩
  next => cases h

theorem regenCond_false_intro {fs : String → Option FileInfo} {tagM : Nat} {rout : String}
    {ofi : FileInfo} (hofi : fs rout = some ofi) (hle : tagM ≤ ofi.mtime) :
    regenCond fs tagM rout = false := by
  unfold regenCond
  rw [hofi]
  simpa using Nat.not_lt.mpr hle

theorem processVariant_skipped {cfg : Config} {sf : SourceFile} {v : Variant} {st : RState}
    (h : skippedVariant cfg sf v = true) :
    processVariant cfg sf v st = { st with notagcount := st.notagcount + 1 } := by
  unfold processVariant
  by_cases h1 : (v.inclAuth && noAuthTag cfg sf) = true
  · rw [if_pos h1]
  · have h2 : (v.inclPrint && noPrintTag cfg sf) = true := by
      have h' := h
      unfold skippedVariant at h'
      cases hA : (v.inclAuth && noAuthTag cfg sf) with
      | true => exact absurd hA h1
      | false =>
        rw [hA] at h'
        simpa using h'
    rw [if_neg h1, if_pos h2]

theorem processVariant_not_skipped {cfg : Config} {sf : SourceFile} {v : Variant} {st : RState}
    (h : skippedVariant cfg sf v = false) :
    processVariant cfg sf v st =
      backendStep cfg (rtagPath sf v)
        (formatsFold sf v (mtimeAt (substStep cfg sf v st).fs (rtagPath sf v))
          (substStep cfg sf v st)) := by
  obtain ⟨h1, h2⟩ : (v.inclAuth && noAuthTag cfg sf) = false
      ∧ (v.inclPrint && noPrintTag cfg sf) = false := by
    simpa [skippedVariant] using h
  unfold processVariant
  rw [if_neg (by simp [h1]), if_neg (by simp [h2])]

theorem formatsFold_Wf {sf : SourceFile} {v : Variant} {tagM : Nat} {st1 : RState}
    (h : Wf st1) : Wf (formatsFold sf v tagM st1).1 := by
  intro p fi hp
  rw [formatsFold_fs] at hp
  rw [formatsFold_now]
  exact h _ _ hp

theorem processVariant_manifest (cfg : Config) (sf : SourceFile) (v : Variant) (st : RState) :
    (processVariant cfg sf v st).manifest = variantManifestAppends cfg sf v st.manifest := by
  cases hskip : skippedVariant cfg sf v
  · rw [processVariant_not_skipped hskip, backendStep_manifest, formatsFold_manifest,
      substStep_manifest]
    unfold variantManifestAppends
    simp [hskip]
  · rw [processVariant_skipped hskip]
    unfold variantManifestAppends
    simp [hskip]

theorem processVariant_now_mono (cfg : Config) (sf : SourceFile) (v : Variant) (st : RState) :
    st.now ≤ (processVariant cfg sf v st).now := by
  cases hskip : skippedVariant cfg sf v
  · rw [processVariant_not_skipped hskip]
    have h1 := substStep_now_mono cfg sf v st
    have h2 := backendStep_now_mono cfg (rtagPath sf v)
      (formatsFold sf v (mtimeAt (substStep cfg sf v st).fs (rtagPath sf v))
        (substStep cfg sf v st))
    rw [formatsFold_now] at h2
    exact Nat.le_trans h1 h2
  · rw [processVariant_skipped hskip]

theorem processVariant_Wf {cfg : Config} {sf : SourceFile} {v : Variant} {st : RState}
    (hwf : Wf st) : Wf (processVariant cfg sf v st) := by
  cases hskip : skippedVariant cfg sf v
  · rw [processVariant_not_skipped hskip]
    exact backendStep_Wf _ _ _ (formatsFold_Wf (substStep_Wf hwf))
  · rw [processVariant_skipped hskip]
    exact hwf

theorem processVariant_fs_frame {cfg : Config} {sf : SourceFile} {v : Variant} {st : RState}
    {p : String} (hp : ¬ ownPath sf v p) :
    (processVariant cfg sf v st).fs p = st.fs p := by
  have hprt : p ≠ rtagPath sf v := fun h => hp (Or.inl h)
  have hpdf : p ≠ routPath sf v "pdf" := fun h => hp (Or.inr ⟨"pdf", pdf_mem_FORMATS, h⟩)
  have hpng : p ≠ routPath sf v "png" := fun h => hp (Or.inr ⟨"png", png_mem_FORMATS, h⟩)
  cases hskip : skippedVariant cfg sf v
  · rw [processVariant_not_skipped hskip]
    have houts : p ∉ (formatsFold sf v
        (mtimeAt (substStep cfg sf v st).fs (rtagPath sf v)) (substStep cfg sf v st)).2.2 := by
      rw [formatsFold_outs]
      intro hmem
      rcases List.mem_append.mp hmem with hm | hm
      · revert hm
        split
        · intro hm
          exact hpdf (by simpa using hm)
        · intro hm
          simp at hm
      · revert hm
        split
        · intro hm
          exact hpng (by simpa using hm)
        · intro hm
          simp at hm
    rw [backendStep_frame _ _ _ houts, formatsFold_fs, substStep_fs_frame _ _ _ _ hprt]
  · rw [processVariant_skipped hskip]

theorem settledVar_frame {cfg : Config} {sf : SourceFile} {v : Variant}
    {fs₁ fs₂ : String → Option FileInfo}
    (hagree : ∀ p, ownPath sf v p → fs₂ p = fs₁ p)
    (h : settledVar cfg sf v fs₁) : settledVar cfg sf v fs₂ := by
  rcases h with h | ⟨tfi, htfi, hc, houts⟩
  · exact Or.inl h
  · refine Or.inr ⟨tfi, ?_, hc, ?_⟩
    · rw [hagree _ (Or.inl rfl)]
      exact htfi
    · intro f hf
      obtain ⟨ofi, hofi, hle⟩ := houts f hf
      refine ⟨ofi, ?_, hle⟩
      rw [hagree _ (Or.inr ⟨f, hf, rfl⟩)]
      exact hofi

theorem isManifestEvent_fileWrite (p : String) :
    isManifestEvent (Event.fileWrite p) = false := rfl

theorem isManifestEvent_backendCall (a : List String) :
    isManifestEvent (Event.backendCall a) = false := rfl

theorem processVariant_trace (cfg : Config) (sf : SourceFile) (v : Variant) (st : RState) :
    ∃ l, (processVariant cfg sf v st).trace = st.trace ++ l ∧
      ∀ e ∈ l, isManifestEvent e = false := by
  cases hskip : skippedVariant cfg sf v
  · rw [processVariant_not_skipped hskip]
    rcases backendStep_trace cfg (rtagPath sf v)
        (formatsFold sf v (mtimeAt (substStep cfg sf v st).fs (rtagPath sf v))
          (substStep cfg sf v st)) with hbt | hbt <;>
      rw [formatsFold_trace] at hbt <;>
      rcases substStep_trace cfg sf v st with hst | hst <;>
      rw [hst] at hbt
    · exact ⟨[], by simpa using hbt, by simp⟩
    · exact ⟨[Event.fileWrite (rtagPath sf v)], hbt, by simp [isManifestEvent]⟩
    · refine ⟨_, hbt, ?_⟩
      intro e he
      rcases List.mem_cons.mp he with rfl | hm
      · rfl
      · obtain ⟨p, _, rfl⟩ := List.mem_map.mp hm
        rfl
    · rw [List.append_assoc] at hbt
      refine ⟨_, hbt, ?_⟩
      intro e he
      rcases List.mem_append.mp he with hm | hm
      · rcases List.mem_singleton.mp hm with rfl
        rfl
      · rcases List.mem_cons.mp hm with rfl | hm
        · rfl
        · obtain ⟨p, _, rfl⟩ := List.mem_map.mp hm
          rfl
  · rw [processVariant_skipped hskip]
    exact ⟨[], by simp, by simp⟩

theorem processVariant_establish {cfg : Config} {sf : SourceFile} {v : Variant} {st : RState}
    (hwf : Wf st) : settledVar cfg sf v (processVariant cfg sf v st).fs := by
  cases hskip : skippedVariant cfg sf v
  case true => exact Or.inl hskip
  case false =>
  right
  obtain ⟨tfi, htfi, hcontent, hlt⟩ := @substStep_rtag cfg sf v st hwf
  rw [processVariant_not_skipped hskip]
  set st1 := substStep cfg sf v st with hst1
  set tagM := mtimeAt st1.fs (rtagPath sf v) with htagMdef
  set acc := formatsFold sf v tagM st1 with hacc
  have htagM : tagM = tfi.mtime := by
    rw [htagMdef]
    unfold mtimeAt
    rw [htfi]
  have hrtag_not : rtagPath sf v ∉ acc.2.2 := by
    rw [hacc, formatsFold_outs]
    intro hmem
    rcases List.mem_append.mp hmem with hm | hm
    · revert hm
      split
      · intro hm
        exact rtag_ne_rout sf v pdf_mem_FORMATS (by simpa using hm)
      · intro hm
        simp at hm
    · revert hm
      split
      · intro hm
        exact rtag_ne_rout sf v png_mem_FORMATS (by simpa using hm)
      · intro hm
        simp at hm
  have hfs_rtag : (backendStep cfg (rtagPath sf v) acc).fs (rtagPath sf v) = some tfi := by
    rw [backendStep_frame _ _ _ hrtag_not, hacc, formatsFold_fs]
    exact htfi
  refine ⟨tfi, hfs_rtag, hcontent, ?_⟩
  intro f hf
  cases hreg : regenCond st1.fs tagM (routPath sf v f)
  · obtain ⟨ofi, hofi, hle⟩ := regenCond_false_elim hreg
    have hnot_in : routPath sf v f ∉ acc.2.2 := by
      rw [hacc, formatsFold_outs]
      rcases FORMATS_cases hf with rfl | rfl
      · intro hmem
        rcases List.mem_append.mp hmem with hm | hm
        · rw [hreg] at hm
          simp at hm
        · revert hm
          split
          · intro hm
            exact rout_pdf_ne_png sf v (by simpa using hm)
          · intro hm
            simp at hm
      · intro hmem
        rcases List.mem_append.mp hmem with hm | hm
        · revert hm
          split
          · intro hm
            have hm' : routPath sf v "png" = routPath sf v "pdf" := by simpa using hm
            exact rout_pdf_ne_png sf v hm'.symm
          · intro hm
            simp at hm
        · rw [hreg] at hm
          simp at hm
    have hfr := backendStep_frame cfg (rtagPath sf v) acc hnot_in
    rw [hacc, formatsFold_fs] at hfr
    refine ⟨ofi, ?_, ?_⟩
    · rw [hfr]
      exact hofi
    · rw [← htagM]
      exact hle
  · have hmem : routPath sf v f ∈ acc.2.2 := by
      rw [hacc, formatsFold_outs]
      rcases FORMATS_cases hf with rfl | rfl
      · refine List.mem_append.mpr (Or.inl ?_)
        rw [hreg]
        simp
      · refine List.mem_append.mpr (Or.inr ?_)
        rw [hreg]
        simp
    have hargs : acc.2.1 ≠ [] := by
      rw [hacc, formatsFold_args]
      rcases FORMATS_cases hf with rfl | rfl
      · rw [hreg]
        intro hnil
        obtain ⟨ha, _⟩ := List.append_eq_nil.mp hnil
        rw [if_pos rfl, outInstr_pdf] at ha
        cases ha
      · rw [hreg]
        intro hnil
        obtain ⟨_, hb⟩ := List.append_eq_nil.mp hnil
        rw [if_pos rfl, outInstr_png] at hb
        cases hb
    obtain ⟨ofi, hofi, hge⟩ := backendStep_mem cfg (rtagPath sf v) acc hmem hargs
    refine ⟨ofi, hofi, ?_⟩
    have h2 : acc.1.now = st1.now := by
      rw [hacc, formatsFold_now]
    have h3 : tfi.mtime < st1.now := hlt
    refine Nat.le_trans (Nat.le_of_lt h3) ?_
    rw [← h2]
    exact hge

theorem processVariant_stable {cfg : Config} {sf : SourceFile} {v : Variant} {st : RState}
    (hs : settledVar cfg sf v st.fs) :
    (processVariant cfg sf v st).fs = st.fs ∧
    (processVariant cfg sf v st).trace = st.trace ∧
    (processVariant cfg sf v st).now = st.now := by
  cases hskip : skippedVariant cfg sf v
  case false =>
    rcases hs with h | ⟨tfi, htfi, hcontent, houts⟩
    · rw [hskip] at h
      cases h
    rw [processVariant_not_skipped hskip]
    have hst1 : substStep cfg sf v st = st := substStep_stable htfi hcontent
    rw [hst1]
    have htagM : mtimeAt st.fs (rtagPath sf v) = tfi.mtime := by
      unfold mtimeAt
      rw [htfi]
    have hc : ∀ f ∈ FORMATS,
        regenCond st.fs (mtimeAt st.fs (rtagPath sf v)) (routPath sf v f) = false := by
      intro f hf
      obtain ⟨ofi, hofi, hle⟩ := houts f hf
      refine regenCond_false_intro hofi ?_
      rw [htagM]
      exact hle
    have hargs : (formatsFold sf v (mtimeAt st.fs (rtagPath sf v)) st).2.1 = [] := by
      rw [formatsFold_args, hc _ pdf_mem_FORMATS, hc _ png_mem_FORMATS]
      simp
    rw [backendStep_empty _ _ _ hargs]
    exact ⟨formatsFold_fs _ _ _ _, formatsFold_trace _ _ _ _, formatsFold_now _ _ _ _⟩
  case true =>
    rw [processVariant_skipped hskip]
    exact ⟨rfl, rfl, rfl⟩

theorem processVariant_settled_other {cfg : Config} {sf sf' : SourceFile} {v v' : Variant}
    {st : RState} (hv : v ∈ VARIANTS) (hv' : v' ∈ VARIANTS)
    (hne : sf.relStem ≠ sf'.relStem ∨ v ≠ v')
    (hs : settledVar cfg sf' v' st.fs) :
    settledVar cfg sf' v' (processVariant cfg sf v st).fs := by
  refine settledVar_frame (fun p hp => ?_) hs
  refine processVariant_fs_frame (fun hp' => ?_)
  obtain ⟨h1, h2⟩ := ownPath_inj hv hv' hp' hp
  rcases hne with hne | hne
  · exact hne h1
  · exact hne h2

/-! ### Per-file lemmas (lines 217-339) -/

theorem vAuth_mem : vAuth ∈ VARIANTS := by decide

theorem vBoth_mem : vBoth ∈ VARIANTS := by decide

theorem vNone_mem : vNone ∈ VARIANTS := by decide

theorem VARIANTS_cases {v : Variant} (hv : v ∈ VARIANTS) :
    v = vAuth ∨ v = vBoth ∨ v = vNone := by
  simpa [VARIANTS, vAuth, vBoth, vNone] using hv

theorem setManifest_fs (st : RState) (m : Manifest) : (setManifest st m).fs = st.fs := rfl

theorem setManifest_now (st : RState) (m : Manifest) : (setManifest st m).now = st.now := rfl

theorem setManifest_trace (st : RState) (m : Manifest) :
    (setManifest st m).trace = st.trace := rfl

theorem setManifest_manifest (st : RState) (m : Manifest) :
    (setManifest st m).manifest = m := rfl

theorem setManifest_Wf {st : RState} (m : Manifest) (h : Wf st) : Wf (setManifest st m) := h

theorem processFile_eq (cfg : Config) (sf : SourceFile) (st : RState) :
    processFile cfg sf st =
      processVariant cfg sf vNone
        (processVariant cfg sf vBoth
          (processVariant cfg sf vAuth
            (setManifest st (manifestInit st.manifest sf.relStem)))) := by
  simp [processFile, VARIANTS, vAuth, vBoth, vNone]

theorem processFile_fs_frame {cfg : Config} {sf : SourceFile} {st : RState} {p : String}
    (hp : ∀ v ∈ VARIANTS, ¬ ownPath sf v p) :
    (processFile cfg sf st).fs p = st.fs p := by
  rw [processFile_eq,
    processVariant_fs_frame (hp vNone vNone_mem),
    processVariant_fs_frame (hp vBoth vBoth_mem),
    processVariant_fs_frame (hp vAuth vAuth_mem)]
  rfl

theorem processFile_Wf {cfg : Config} {sf : SourceFile} {st : RState} (hwf : Wf st) :
    Wf (processFile cfg sf st) := by
  rw [processFile_eq]
  exact processVariant_Wf (processVariant_Wf (processVariant_Wf (setManifest_Wf _ hwf)))

theorem processFile_now_mono (cfg : Config) (sf : SourceFile) (st : RState) :
    st.now ≤ (processFile cfg sf st).now := by
  rw [processFile_eq]
  refine Nat.le_trans ?_ (processVariant_now_mono cfg sf vNone _)
  refine Nat.le_trans ?_ (processVariant_now_mono cfg sf vBoth _)
  have h0 := processVariant_now_mono cfg sf vAuth
    (setManifest st (manifestInit st.manifest sf.relStem))
  rw [setManifest_now] at h0
  exact h0

theorem processFile_manifest (cfg : Config) (sf : SourceFile) (st : RState) :
    (processFile cfg sf st).manifest = fileManifest cfg sf st.manifest := by
  rw [processFile_eq, processVariant_manifest, processVariant_manifest,
    processVariant_manifest, setManifest_manifest]
  simp [fileManifest, VARIANTS, vAuth, vBoth, vNone]

theorem processFile_trace (cfg : Config) (sf : SourceFile) (st : RState) :
    ∃ l, (processFile cfg sf st).trace = st.trace ++ l ∧
      ∀ e ∈ l, isManifestEvent e = false := by
  rw [processFile_eq]
  obtain ⟨l₁, h₁, hm₁⟩ := processVariant_trace cfg sf vAuth
    (setManifest st (manifestInit st.manifest sf.relStem))
  obtain ⟨l₂, h₂, hm₂⟩ := processVariant_trace cfg sf vBoth
    (processVariant cfg sf vAuth (setManifest st (manifestInit st.manifest sf.relStem)))
  obtain ⟨l₃, h₃, hm₃⟩ := processVariant_trace cfg sf vNone
    (processVariant cfg sf vBoth
      (processVariant cfg sf vAuth (setManifest st (manifestInit st.manifest sf.relStem))))
  rw [h₂, h₁, setManifest_trace] at h₃
  refine ⟨l₁ ++ l₂ ++ l₃, by rw [h₃]; simp, ?_⟩
  intro e he
  rcases List.mem_append.mp he with he' | he'
  · rcases List.mem_append.mp he' with he'' | he''
    · exact hm₁ e he''
    · exact hm₂ e he''
  · exact hm₃ e he'

theorem processFile_establish {cfg : Config} {sf : SourceFile} {st : RState} (hwf : Wf st) :
    SettledFile cfg sf (processFile cfg sf st).fs := by
  rw [processFile_eq]
  have hw0 : Wf (setManifest st (manifestInit st.manifest sf.relStem)) := setManifest_Wf _ hwf
  have hw1 := @processVariant_Wf cfg sf vAuth _ hw0
  have hw2 := @processVariant_Wf cfg sf vBoth _ hw1
  have hsA := @processVariant_establish cfg sf vAuth _ hw0
  have hsB := @processVariant_establish cfg sf vBoth _ hw1
  have hsN := @processVariant_establish cfg sf vNone _ hw2
  have hsA' := @processVariant_settled_other cfg sf sf vBoth vAuth _ vBoth_mem vAuth_mem
    (Or.inr (by decide)) hsA
  have hsA'' := @processVariant_settled_other cfg sf sf vNone vAuth _ vNone_mem vAuth_mem
    (Or.inr (by decide)) hsA'
  have hsB' := @processVariant_settled_other cfg sf sf vNone vBoth _ vNone_mem vBoth_mem
    (Or.inr (by decide)) hsB
  intro v hv
  rcases VARIANTS_cases hv with rfl | rfl | rfl
  · exact hsA''
  · exact hsB'
  · exact hsN

theorem SettledFile_frame {cfg : Config} {sf : SourceFile}
    {fs₁ fs₂ : String → Option FileInfo}
    (hagree : ∀ v ∈ VARIANTS, ∀ p, ownPath sf v p → fs₂ p = fs₁ p)
    (h : SettledFile cfg sf fs₁) : SettledFile cfg sf fs₂ := by
  intro v hv
  exact settledVar_frame (hagree v hv) (h v hv)

theorem processFile_stable {cfg : Config} {sf : SourceFile} {st : RState}
    (hs : SettledFile cfg sf st.fs) :
    (processFile cfg sf st).fs = st.fs ∧
    (processFile cfg sf st).trace = st.trace ∧
    (processFile cfg sf st).now = st.now := by
  rw [processFile_eq]
  have h0fs : (setManifest st (manifestInit st.manifest sf.relStem)).fs = st.fs := rfl
  have hA := @processVariant_stable cfg sf vAuth
    (setManifest st (manifestInit st.manifest sf.relStem))
    (by rw [h0fs]; exact hs vAuth vAuth_mem)
  have hB := @processVariant_stable cfg sf vBoth
    (processVariant cfg sf vAuth (setManifest st (manifestInit st.manifest sf.relStem)))
    (by rw [hA.1, h0fs]; exact hs vBoth vBoth_mem)
  have hN := @processVariant_stable cfg sf vNone
    (processVariant cfg sf vBoth
      (processVariant cfg sf vAuth (setManifest st (manifestInit st.manifest sf.relStem))))
    (by rw [hB.1, hA.1, h0fs]; exact hs vNone vNone_mem)
  refine ⟨?_, ?_, ?_⟩
  · rw [hN.1, hB.1, hA.1, h0fs]
  · rw [hN.2.1, hB.2.1, hA.2.1, setManifest_trace]
  · rw [hN.2.2, hB.2.2, hA.2.2, setManifest_now]

theorem processFile_settled_other {cfg : Config} {sf sf' : SourceFile} {st : RState}
    (hne : sf.relStem ≠ sf'.relStem)
    (hs : SettledFile cfg sf' st.fs) :
    SettledFile cfg sf' (processFile cfg sf st).fs := by
  refine SettledFile_frame (fun v' hv' p hp => ?_) hs
  refine processFile_fs_frame (fun v hv hp' => ?_)
  exact hne (ownPath_inj hv hv' hp' hp).1

/-! ### Run-level lemmas -/

theorem runPipeline_nil (cfg : Config) (st : RState) : runPipeline cfg [] st = st := rfl

theorem runPipeline_cons (cfg : Config) (sf : SourceFile) (rest : List SourceFile)
    (st : RState) :
    runPipeline cfg (sf :: rest) st = runPipeline cfg rest (processFile cfg sf st) := rfl

theorem runPipeline_Wf {cfg : Config} (files : List SourceFile) :
    ∀ {st : RState}, Wf st → Wf (runPipeline cfg files st) := by
  induction files with
  | nil => intro st h; exact h
  | cons sf rest ih =>
    intro st h
    rw [runPipeline_cons]
    exact ih (processFile_Wf h)

theorem runPipeline_manifest (cfg : Config) (files : List SourceFile) :
    ∀ st : RState, (runPipeline cfg files st).manifest = runManifest cfg files st.manifest := by
  induction files with
  | nil => intro st; rfl
  | cons sf rest ih =>
    intro st
    rw [runPipeline_cons, ih, processFile_manifest]
    rfl

theorem runPipeline_trace (cfg : Config) (files : List SourceFile) :
    ∀ st : RState, ∃ l, (runPipeline cfg files st).trace = st.trace ++ l ∧
      ∀ e ∈ l, isManifestEvent e = false := by
  induction files with
  | nil => intro st; exact ⟨[], by simp [runPipeline_nil], by simp⟩
  | cons sf rest ih =>
    intro st
    obtain ⟨l₁, h₁, hm₁⟩ := processFile_trace cfg sf st
    obtain ⟨l₂, h₂, hm₂⟩ := ih (processFile cfg sf st)
    rw [runPipeline_cons]
    refine ⟨l₁ ++ l₂, ?_, ?_⟩
    · rw [h₂, h₁]
      simp
    · intro e he
      rcases List.mem_append.mp he with he' | he'
      · exact hm₁ e he'
      · exact hm₂ e he'

theorem runPipeline_fs_frame {cfg : Config} (files : List SourceFile) {p : String} :
    ∀ st : RState, (∀ sf ∈ files, ∀ v ∈ VARIANTS, ¬ ownPath sf v p) →
      (runPipeline cfg files st).fs p = st.fs p := by
  induction files with
  | nil => intro st _; rfl
  | cons sf rest ih =>
    intro st hp
    rw [runPipeline_cons, ih _ (fun sf' h' => hp sf' (List.mem_cons_of_mem _ h'))]
    exact processFile_fs_frame (hp sf (List.mem_cons_self _ _))

theorem runPipeline_establish {cfg : Config} (files : List SourceFile) :
    ∀ st : RState, Wf st → (files.map SourceFile.relStem).Nodup →
      ∀ sf ∈ files, SettledFile cfg sf (runPipeline cfg files st).fs := by
  induction files with
  | nil => intro st _ _ sf h; cases h
  | cons x rest ih =>
    intro st hwf hnodup sf hmem
    have hnodup' : (rest.map SourceFile.relStem).Nodup := by
      simpa using (List.nodup_cons.mp (by simpa using hnodup)).2
    have hxfresh : x.relStem ∉ rest.map SourceFile.relStem :=
      (List.nodup_cons.mp (by simpa using hnodup)).1
    rw [runPipeline_cons]
    rcases List.mem_cons.mp hmem with rfl | hmem'
    · have hsx := @processFile_establish cfg sf _ hwf
      refine SettledFile_frame (fun v hv p hp => ?_) hsx
      refine runPipeline_fs_frame rest _ (fun sf' hsf' v' hv' hp' => ?_)
      have heq := (ownPath_inj hv' hv hp' hp).1
      exact hxfresh (heq ▸ List.mem_map_of_mem SourceFile.relStem hsf')
    · exact ih _ (processFile_Wf hwf) hnodup' sf hmem'

theorem runPipeline_stable {cfg : Config} (files : List SourceFile) :
    ∀ st : RState, (∀ sf ∈ files, SettledFile cfg sf st.fs) →
      (runPipeline cfg files st).fs = st.fs ∧
      (runPipeline cfg files st).trace = st.trace ∧
      (runPipeline cfg files st).now = st.now := by
  induction files with
  | nil => intro st _; exact ⟨rfl, rfl, rfl⟩
  | cons x rest ih =>
    intro st hs
    rw [runPipeline_cons]
    have hx := @processFile_stable cfg x st (hs x (List.mem_cons_self _ _))
    have hrest := ih (processFile cfg x st) (fun sf hsf => by
      rw [hx.1]
      exact hs sf (List.mem_cons_of_mem _ hsf))
    refine ⟨?_, ?_, ?_⟩
    · rw [hrest.1, hx.1]
    · rw [hrest.2.1, hx.2.1]
    · rw [hrest.2.2, hx.2.2]

/-! ### Manifest dictionary lemmas -/

theorem lookupM_nil (k : String) : lookupM [] k = none := rfl

theorem lookupM_cons_self {kv : String × List String} {rest : Manifest} :
    lookupM (kv :: rest) kv.1 = some kv.2 := by
  unfold lookupM
  rw [List.find?_cons_of_pos _ (by simp)]
  rfl

theorem lookupM_cons_ne {kv : String × List String} {rest : Manifest} {k : String}
    (h : k ≠ kv.1) : lookupM (kv :: rest) k = lookupM rest k := by
  unfold lookupM
  rw [List.find?_cons_of_neg _ (by simp [Ne.symm h])]

theorem manifestAppend_cons (kv : String × List String) (rest : Manifest) (k v : String) :
    manifestAppend (kv :: rest) k v
      = (if kv.1 == k then (kv.1, kv.2 ++ [v]) else kv) :: manifestAppend rest k v := rfl

theorem lookupM_append_ne {k k' : String} (v : String) (h : k' ≠ k) :
    ∀ m : Manifest, lookupM (manifestAppend m k v) k' = lookupM m k' := by
  intro m
  induction m with
  | nil => rfl
  | cons kv rest ih =>
    rw [manifestAppend_cons]
    by_cases hkv : kv.1 = k
    · have hk' : k' ≠ kv.1 := fun hc => h (hc.trans hkv)
      rw [if_pos (by simp [hkv]), @lookupM_cons_ne (kv.1, kv.2 ++ [v]) _ _ hk',
        lookupM_cons_ne hk', ih]
    · rw [if_neg (by simp [hkv])]
      by_cases hk' : k' = kv.1
      · subst hk'
        rw [lookupM_cons_self, lookupM_cons_self]
      · rw [lookupM_cons_ne hk', lookupM_cons_ne hk', ih]

theorem lookupM_append_self (k v : String) :
    ∀ m : Manifest,
      lookupM (manifestAppend m k v) k = (lookupM m k).map (fun l => l ++ [v]) := by
  intro m
  induction m with
  | nil => rfl
  | cons kv rest ih =>
    rw [manifestAppend_cons]
    by_cases hkv : kv.1 = k
    · subst hkv
      rw [if_pos (by simp), @lookupM_cons_self (kv.1, kv.2 ++ [v]) _, lookupM_cons_self]
      rfl
    · have hk : k ≠ kv.1 := fun hc => hkv hc.symm
      rw [if_neg (by simp [hkv]), lookupM_cons_ne hk, lookupM_cons_ne hk, ih]

theorem manifest_any_false {m : Manifest} {k : String} (h : k ∉ m.map Prod.fst) :
    (m.any fun kv => kv.1 == k) = false := by
  rw [List.any_eq_false]
  intro kv hkv
  have : kv.1 ≠ k := fun heq => h (heq ▸ List.mem_map_of_mem Prod.fst hkv)
  simpa using this

theorem manifestInit_fresh {m : Manifest} {k : String} (h : k ∉ m.map Prod.fst) :
    manifestInit m k = m ++ [(k, [])] := by
  unfold manifestInit
  rw [if_neg (by simp [manifest_any_false h])]

theorem lookupM_append_right_fresh {m : Manifest} {k : String} (h : k ∉ m.map Prod.fst)
    (m₂ : Manifest) : lookupM (m ++ m₂) k = lookupM m₂ k := by
  induction m with
  | nil => rfl
  | cons kv rest ih =>
    have h1 : k ≠ kv.1 := fun hc => h (by simp [hc])
    have h2 : k ∉ rest.map Prod.fst := fun hc => h (by simp [hc])
    rw [List.cons_append, lookupM_cons_ne h1, ih h2]

theorem lookupM_init_self {m : Manifest} {k : String} (h : k ∉ m.map Prod.fst) :
    lookupM (manifestInit m k) k = some [] := by
  rw [manifestInit_fresh h, lookupM_append_right_fresh h]
  exact @lookupM_cons_self (k, []) _

theorem lookupM_map_reset_ne {k k' : String} (h : k' ≠ k) :
    ∀ m : Manifest,
      lookupM (m.map fun kv => if kv.1 == k then (k, ([] : List String)) else kv) k'
        = lookupM m k' := by
  intro m
  induction m with
  | nil => rfl
  | cons kv rest ih =>
    rw [List.map_cons]
    by_cases hkv : kv.1 = k
    · have hk' : k' ≠ kv.1 := fun hc => h (hc.trans hkv)
      rw [if_pos (by simp [hkv]), @lookupM_cons_ne (k, []) _ _ (hkv ▸ hk'),
        lookupM_cons_ne hk', ih]
    · rw [if_neg (by simp [hkv])]
      by_cases hk' : k' = kv.1
      · subst hk'
        rw [lookupM_cons_self, lookupM_cons_self]
      · rw [lookupM_cons_ne hk', lookupM_cons_ne hk', ih]

theorem lookupM_append_single_ne {k k' : String} (h : k' ≠ k) :
    ∀ m : Manifest, lookupM (m ++ [(k, ([] : List String))]) k' = lookupM m k' := by
  intro m
  induction m with
  | nil => simpa [lookupM_nil] using @lookupM_cons_ne (k, []) [] _ h
  | cons kv rest ih =>
    by_cases hk' : k' = kv.1
    · subst hk'
      rw [List.cons_append, lookupM_cons_self, lookupM_cons_self]
    · rw [List.cons_append, lookupM_cons_ne hk', lookupM_cons_ne hk', ih]

theorem lookupM_init_ne {m : Manifest} {k k' : String} (h : k' ≠ k) :
    lookupM (manifestInit m k) k' = lookupM m k' := by
  unfold manifestInit
  split
  · exact lookupM_map_reset_ne h m
  · exact lookupM_append_single_ne h m

theorem manifestAppend_keys (k v : String) :
    ∀ m : Manifest, (manifestAppend m k v).map Prod.fst = m.map Prod.fst := by
  intro m
  induction m with
  | nil => rfl
  | cons kv rest ih =>
    rw [manifestAppend_cons, List.map_cons, List.map_cons, ih]
    congr 1
    split <;> rfl

theorem manifestInit_keys_fresh {m : Manifest} {k : String} (h : k ∉ m.map Prod.fst) :
    (manifestInit m k).map Prod.fst = m.map Prod.fst ++ [k] := by
  rw [manifestInit_fresh h]
  simp

theorem variantManifestAppends_keys (cfg : Config) (sf : SourceFile) (v : Variant)
    (m : Manifest) :
    (variantManifestAppends cfg sf v m).map Prod.fst = m.map Prod.fst := by
  unfold variantManifestAppends
  split
  · rfl
  · rw [manifestAppend_keys, manifestAppend_keys]

theorem fileManifest_eq (cfg : Config) (sf : SourceFile) (m : Manifest) :
    fileManifest cfg sf m =
      variantManifestAppends cfg sf vNone
        (variantManifestAppends cfg sf vBoth
          (variantManifestAppends cfg sf vAuth (manifestInit m sf.relStem))) := by
  simp [fileManifest, VARIANTS, vAuth, vBoth, vNone]

theorem fileManifest_keys {cfg : Config} {sf : SourceFile} {m : Manifest}
    (h : sf.relStem ∉ m.map Prod.fst) :
    (fileManifest cfg sf m).map Prod.fst = m.map Prod.fst ++ [sf.relStem] := by
  rw [fileManifest_eq, variantManifestAppends_keys, variantManifestAppends_keys,
    variantManifestAppends_keys, manifestInit_keys_fresh h]

theorem lookupM_vMA_ne {cfg : Config} {sf : SourceFile} {v : Variant} {k' : String}
    (h : k' ≠ sf.relStem) (m : Manifest) :
    lookupM (variantManifestAppends cfg sf v m) k' = lookupM m k' := by
  unfold variantManifestAppends
  split
  · rfl
  · rw [lookupM_append_ne _ h, lookupM_append_ne _ h]

theorem lookupM_vMA_self (cfg : Config) (sf : SourceFile) (v : Variant) (m : Manifest) :
    lookupM (variantManifestAppends cfg sf v m) sf.relStem
      = (lookupM m sf.relStem).map (fun l => l ++ variantOutputs cfg sf v) := by
  unfold variantManifestAppends variantOutputs
  split
  · cases lookupM m sf.relStem <;> simp
  · rw [lookupM_append_self, lookupM_append_self]
    cases lookupM m sf.relStem <;> simp [FORMATS]

theorem lookupM_fileManifest_self {cfg : Config} {sf : SourceFile} {m : Manifest}
    (h : sf.relStem ∉ m.map Prod.fst) :
    lookupM (fileManifest cfg sf m) sf.relStem = some (expectedOutputs cfg sf) := by
  rw [fileManifest_eq, lookupM_vMA_self, lookupM_vMA_self, lookupM_vMA_self,
    lookupM_init_self h]
  simp [expectedOutputs, VARIANTS, vAuth, vBoth, vNone]

theorem lookupM_fileManifest_ne {cfg : Config} {sf : SourceFile} {m : Manifest} {k' : String}
    (h : k' ≠ sf.relStem) :
    lookupM (fileManifest cfg sf m) k' = lookupM m k' := by
  rw [fileManifest_eq, lookupM_vMA_ne h, lookupM_vMA_ne h, lookupM_vMA_ne h,
    lookupM_init_ne h]

theorem runManifest_nil (cfg : Config) (m : Manifest) : runManifest cfg [] m = m := rfl

theorem runManifest_cons (cfg : Config) (sf : SourceFile) (rest : List SourceFile)
    (m : Manifest) :
    runManifest cfg (sf :: rest) m = runManifest cfg rest (fileManifest cfg sf m) := rfl

theorem lookupM_runManifest_other {cfg : Config} {k : String} :
    ∀ (files : List SourceFile) (m : Manifest), k ∉ files.map SourceFile.relStem →
      lookupM (runManifest cfg files m) k = lookupM m k := by
  intro files
  induction files with
  | nil => intro m _; rfl
  | cons x rest ih =>
    intro m h
    have h1 : k ≠ x.relStem := fun hc => h (by simp [hc])
    have h2 : k ∉ rest.map SourceFile.relStem := fun hc => h (by simp [hc])
    rw [runManifest_cons, ih _ h2, lookupM_fileManifest_ne h1]

theorem runManifest_keys {cfg : Config} :
    ∀ (files : List SourceFile) (m : Manifest),
      (files.map SourceFile.relStem).Nodup →
      (∀ sf ∈ files, sf.relStem ∉ m.map Prod.fst) →
      (runManifest cfg files m).map Prod.fst
        = m.map Prod.fst ++ files.map SourceFile.relStem := by
  intro files
  induction files with
  | nil => intro m _ _; simp [runManifest_nil]
  | cons x rest ih =>
    intro m hnd hfr
    have hxfresh : x.relStem ∉ rest.map SourceFile.relStem :=
      (List.nodup_cons.mp (by simpa using hnd)).1
    have hnd' : (rest.map SourceFile.relStem).Nodup :=
      (List.nodup_cons.mp (by simpa using hnd)).2
    have hfr' : ∀ sf ∈ rest, sf.relStem ∉ (fileManifest cfg x m).map Prod.fst := by
      intro sf hsf
      rw [fileManifest_keys (hfr x (List.mem_cons_self _ _))]
      intro hc
      rcases List.mem_append.mp hc with hc' | hc'
      · exact hfr sf (List.mem_cons_of_mem _ hsf) hc'
      · exact hxfresh ((List.mem_singleton.mp hc') ▸ List.mem_map_of_mem SourceFile.relStem hsf)
    rw [runManifest_cons, ih _ hnd' hfr', fileManifest_keys (hfr x (List.mem_cons_self _ _))]
    simp

theorem lookupM_runManifest_self {cfg : Config} :
    ∀ (files : List SourceFile) (m : Manifest) (sf : SourceFile), sf ∈ files →
      (files.map SourceFile.relStem).Nodup →
      (∀ sf' ∈ files, sf'.relStem ∉ m.map Prod.fst) →
      lookupM (runManifest cfg files m) sf.relStem = some (expectedOutputs cfg sf) := by
  intro files
  induction files with
  | nil => intro m sf hmem; cases hmem
  | cons x rest ih =>
    intro m sf hmem hnd hfr
    have hxfresh : x.relStem ∉ rest.map SourceFile.relStem :=
      (List.nodup_cons.mp (by simpa using hnd)).1
    have hnd' : (rest.map SourceFile.relStem).Nodup :=
      (List.nodup_cons.mp (by simpa using hnd)).2
    rw [runManifest_cons]
    rcases List.mem_cons.mp hmem with rfl | hmem'
    · have hnot : sf.relStem ∉ rest.map SourceFile.relStem := hxfresh
      rw [lookupM_runManifest_other rest _ hnot,
        lookupM_fileManifest_self (hfr sf (List.mem_cons_self _ _))]
    · have hfr' : ∀ sf' ∈ rest, sf'.relStem ∉ (fileManifest cfg x m).map Prod.fst := by
        intro sf' hsf'
        rw [fileManifest_keys (hfr x (List.mem_cons_self _ _))]
        intro hc
        rcases List.mem_append.mp hc with hc' | hc'
        · exact hfr sf' (List.mem_cons_of_mem _ hsf') hc'
        · exact hxfresh
            ((List.mem_singleton.mp hc') ▸ List.mem_map_of_mem SourceFile.relStem hsf')
      exact ih _ sf hmem' hnd' hfr'

/-! ### Sorting lemmas (line 344) -/

theorem strCmp_swap : ∀ (x y : List Char), strCmp x y = Ordering.gt ↔ strCmp y x = Ordering.lt := by
  intro x
  induction x with
  | nil => intro y; cases y <;> simp [strCmp]
  | cons c cs ih =>
    intro y
    cases y with
    | nil => simp [strCmp]
    | cons d ds =>
      simp only [strCmp]
      by_cases hcd : c.toNat < d.toNat
      · have hdc : ¬ d.toNat < c.toNat := Nat.lt_asymm hcd
        simp [hcd, hdc]
      · by_cases hdc : d.toNat < c.toNat
        · simp [hcd, hdc]
        · simpa [hcd, hdc] using ih ds

theorem strCmp_trans : ∀ (x y z : List Char), strCmp x y ≠ Ordering.gt →
    strCmp y z ≠ Ordering.gt → strCmp x z ≠ Ordering.gt := by
  intro x
  induction x with
  | nil => intro y z _ _; cases z <;> simp [strCmp]
  | cons c cs ih =>
    intro y z hxy hyz
    cases y with
    | nil => exact absurd rfl hxy
    | cons d ds =>
      cases z with
      | nil => exact absurd rfl hyz
      | cons e es =>
        simp only [strCmp] at hxy hyz ⊢
        by_cases hcd : c.toNat < d.toNat
        · by_cases hde : d.toNat < e.toNat
          · have hce : c.toNat < e.toNat := Nat.lt_trans hcd hde
            simp [hce]
          · by_cases hed : e.toNat < d.toNat
            · rw [if_neg hde, if_pos hed] at hyz
              simp at hyz
            · have hde' : d = e :=
                char_toNat_inj (Nat.le_antisymm (Nat.not_lt.mp hed) (Nat.not_lt.mp hde))
              subst hde'
              simp [hcd]
        · by_cases hdc : d.toNat < c.toNat
          · rw [if_neg hcd, if_pos hdc] at hxy
            simp at hxy
          · have hcd' : c = d :=
              char_toNat_inj (Nat.le_antisymm (Nat.not_lt.mp hdc) (Nat.not_lt.mp hcd))
            subst hcd'
            rw [if_neg hcd, if_neg hdc] at hxy
            by_cases hce : c.toNat < e.toNat
            · simp [hce]
            · by_cases hec : e.toNat < c.toNat
              · rw [if_neg hce, if_pos hec] at hyz
                simp at hyz
              · rw [if_neg hce, if_neg hec] at hyz ⊢
                exact ih ds es hxy hyz

theorem strLeB_total {a b : String} (h : strLeB a b = false) : strLeB b a = true := by
  unfold strLeB at *
  have hgt : strCmp a.data b.data = Ordering.gt := by
    by_contra hc
    simp [hc] at h
  have hlt : strCmp b.data a.data = Ordering.lt := (strCmp_swap _ _).mp hgt
  simp [hlt]

theorem strLeB_trans {a b c : String} (h1 : strLeB a b = true) (h2 : strLeB b c = true) :
    strLeB a c = true := by
  unfold strLeB at *
  have g1 : strCmp a.data b.data ≠ Ordering.gt := by simpa using h1
  have g2 : strCmp b.data c.data ≠ Ordering.gt := by simpa using h2
  simpa using strCmp_trans _ _ _ g1 g2

theorem insertKey_perm (k : String) : ∀ l : List String, (insertKey k l).Perm (k :: l) := by
  intro l
  induction l with
  | nil => simp [insertKey]
  | cons x xs ih =>
    unfold insertKey
    split
    · exact List.Perm.refl _
    · exact List.Perm.trans (List.Perm.cons x ih) (List.Perm.swap k x xs)

theorem mem_insertKey {k b : String} {l : List String} :
    b ∈ insertKey k l ↔ b = k ∨ b ∈ l := by
  rw [(insertKey_perm k l).mem_iff]
  simp

theorem insertKey_sorted {k : String} {l : List String}
    (h : List.Pairwise (fun a b => strLeB a b = true) l) :
    List.Pairwise (fun a b => strLeB a b = true) (insertKey k l) := by
  induction l with
  | nil => simp [insertKey]
  | cons x xs ih =>
    unfold insertKey
    split
    next hkx =>
      refine List.Pairwise.cons ?_ h
      intro b hb
      rcases List.mem_cons.mp hb with rfl | hb'
      · exact hkx
      · exact strLeB_trans hkx (List.rel_of_pairwise_cons h hb')
    next hkx =>
      have hxk : strLeB x k = true := strLeB_total (by simpa using hkx)
      refine List.Pairwise.cons ?_ (ih (List.Pairwise.of_cons h))
      intro b hb
      rcases mem_insertKey.mp hb with rfl | hb'
      · exact hxk
      · exact List.rel_of_pairwise_cons h hb'

theorem sortKeys_perm : ∀ l : List String, (sortKeys l).Perm l := by
  intro l
  induction l with
  | nil => simp [sortKeys]
  | cons k ks ih =>
    unfold sortKeys
    exact (insertKey_perm k (sortKeys ks)).trans (List.Perm.cons k ih)

theorem sortKeys_sorted : ∀ l : List String,
    List.Pairwise (fun a b => strLeB a b = true) (sortKeys l) := by
  intro l
  induction l with
  | nil => simp [sortKeys]
  | cons k ks ih =>
    unfold sortKeys
    exact insertKey_sorted ih

theorem map_lookup_eq_self : ∀ {m : Manifest}, (m.map Prod.fst).Nodup →
    (m.map Prod.fst).map (fun k => (k, (lookupM m k).getD [])) = m := by
  intro m
  induction m with
  | nil => intro _; rfl
  | cons kv rest ih =>
    intro h
    rw [List.map_cons] at h
    have h' : (rest.map Prod.fst).Nodup := (List.nodup_cons.mp h).2
    have hfst : kv.1 ∉ rest.map Prod.fst := (List.nodup_cons.mp h).1
    rw [List.map_cons, List.map_cons]
    congr 1
    · rw [lookupM_cons_self]
      rfl
    · refine (List.map_congr_left fun k hk => ?_).trans (ih h')
      have hne : k ≠ kv.1 := fun hc => hfst (hc ▸ hk)
      rw [lookupM_cons_ne hne]

theorem manifestOutput_perm {m : Manifest} (h : (m.map Prod.fst).Nodup) :
    (manifestOutput m).Perm m := by
  unfold manifestOutput
  have hp := (sortKeys_perm (m.map Prod.fst)).map (fun k => (k, (lookupM m k).getD []))
  rw [map_lookup_eq_self h] at hp
  exact hp

theorem manifestOutput_sorted (m : Manifest) :
    List.Pairwise (fun a b => strLeB a.1 b.1 = true) (manifestOutput m) := by
  unfold manifestOutput
  rw [List.pairwise_map]
  exact sortKeys_sorted _

/-! ### Full-run lemmas -/

theorem fullRun_trace (cfg : Config) (files : List SourceFile) (st0 : RState) :
    (fullRun cfg files st0).trace
      = (runPipeline cfg files st0).trace
        ++ [Event.manifestWrite (manifestOutput (runPipeline cfg files st0).manifest)] := rfl

theorem fullRun_manifest (cfg : Config) (files : List SourceFile) (st0 : RState) :
    (fullRun cfg files st0).manifest = (runPipeline cfg files st0).manifest := rfl

theorem fullRun_fs (cfg : Config) (files : List SourceFile) (st0 : RState) :
    (fullRun cfg files st0).fs = (runPipeline cfg files st0).fs := rfl

/-! ### Helper lemmas for the claim theorems -/

theorem newEvents_eq {st st' : RState} {l : List Event} (h : st'.trace = st.trace ++ l) :
    newEvents st st' = l := by
  unfold newEvents
  rw [h, List.drop_left]

theorem rtag_not_in_outs (sf : SourceFile) (v : Variant) (tagM : Nat) (st1 : RState) :
    rtagPath sf v ∉ (formatsFold sf v tagM st1).2.2 := by
  rw [formatsFold_outs]
  intro hmem
  rcases List.mem_append.mp hmem with hm | hm
  · revert hm
    split
    · intro hm
      exact rtag_ne_rout sf v pdf_mem_FORMATS (by simpa using hm)
    · intro hm
      simp at hm
  · revert hm
    split
    · intro hm
      exact rtag_ne_rout sf v png_mem_FORMATS (by simpa using hm)
    · intro hm
      simp at hm

theorem rout_mem_outs_iff (sf : SourceFile) (v : Variant) (tagM : Nat) (st1 : RState)
    {f : String} (hf : f ∈ FORMATS) :
    routPath sf v f ∈ (formatsFold sf v tagM st1).2.2 ↔
      regenCond st1.fs tagM (routPath sf v f) = true := by
  rw [formatsFold_outs]
  rcases FORMATS_cases hf with rfl | rfl
  · constructor
    · intro hmem
      rcases List.mem_append.mp hmem with hm | hm
      · revert hm
        split
        next hc =>
          intro _
          exact hc
        next =>
          intro hm
          simp at hm
      · revert hm
        split
        · intro hm
          exact absurd (by simpa using hm) (rout_pdf_ne_png sf v)
        · intro hm
          simp at hm
    · intro hc
      refine List.mem_append.mpr (Or.inl ?_)
      rw [hc]
      simp
  · constructor
    · intro hmem
      rcases List.mem_append.mp hmem with hm | hm
      · revert hm
        split
        · intro hm
          have hm' : routPath sf v "png" = routPath sf v "pdf" := by simpa using hm
          exact absurd hm'.symm (rout_pdf_ne_png sf v)
        · intro hm
          simp at hm
      · revert hm
        split
        next hc =>
          intro _
          exact hc
        next =>
          intro hm
          simp at hm
    · intro hc
      refine List.mem_append.mpr (Or.inr ?_)
      rw [hc]
      simp

theorem args_ne_nil_of_regen (sf : SourceFile) (v : Variant) (tagM : Nat) (st1 : RState)
    {f : String} (hf : f ∈ FORMATS)
    (h : regenCond st1.fs tagM (routPath sf v f) = true) :
    (formatsFold sf v tagM st1).2.1 ≠ [] := by
  rw [formatsFold_args]
  rcases FORMATS_cases hf with rfl | rfl
  · rw [h]
    intro hnil
    obtain ⟨ha, _⟩ := List.append_eq_nil.mp hnil
    rw [if_pos rfl, outInstr_pdf] at ha
    cases ha
  · rw [h]
    intro hnil
    obtain ⟨_, hb⟩ := List.append_eq_nil.mp hnil
    rw [if_pos rfl, outInstr_png] at hb
    cases hb

theorem substStep_rtag_exists (cfg : Config) (sf : SourceFile) (v : Variant) (st : RState) :
    ∃ tfi, (substStep cfg sf v st).fs (rtagPath sf v) = some tfi ∧
      tfi.content = candContent cfg v sf.content := by
  cases hfs : st.fs (rtagPath sf v) with
  | some fi =>
    by_cases hc : fi.content = candContent cfg v sf.content
    · rw [substStep_stable hfs hc]
      exact ⟨fi, hfs, hc⟩
    · rw [substStep_write_diff hfs hc]
      exact ⟨_, writeFS_same _ _ _, rfl⟩
  | none =>
    rw [substStep_write_none hfs]
    exact ⟨_, writeFS_same _ _ _, rfl⟩

theorem filter_call_map_fileWrite (outs : List String) :
    (outs.map Event.fileWrite).filter isBackendCallEvent = [] := by
  induction outs with
  | nil => rfl
  | cons q rest ih => simp [isBackendCallEvent, ih]

theorem mtimeAt_lt_now {st : RState} {p : String} {fi : FileInfo} (hwf : Wf st)
    (h : st.fs p = some fi) : mtimeAt st.fs p < st.now := by
  unfold mtimeAt
  rw [h]
  exact hwf _ _ h

/-! ### Claim theorems -/

/-- C9: the tag loader, given the tag file's content (or `none` when the file
does not exist) and a placeholder token, returns the file's whitespace-trimmed
content with no warning when the file exists; when the file is missing it
emits the warning and returns the placeholder token itself, which makes the
subsequent sed substitution of that token a no-op on any content.  The
missing-file case is total (not fatal). -/
theorem C9_tag_loader (c tag content : String) :
    loadTag (some c) tag = (c.trim, false) ∧
    loadTag none tag = (tag, true) ∧
    sedReplace tag (loadTag none tag).1 content = content :=
  ⟨rfl, rfl, sedReplace_self tag content⟩

/-- C1 counterexample: for the source file `sfBoth`, whose raw content
contains both placeholder tokens literally, the `none`-variant tagged
artifact produced by the script contains neither placeholder: the claim that
excluded placeholders "remain literally present" is false — they are replaced
by the empty string (deleted). -/
theorem C1_counterexample :
    (processVariant cfg0 sfBoth vNone emptyState).fs (rtagPath sfBoth vNone)
        = some ⟨"<svg> </svg>", 0⟩ ∧
    containsSub cfg0.AUTH_TAG.data ("<svg> </svg>" : String).data = false ∧
    containsSub cfg0.PRINT_TAG.data ("<svg> </svg>" : String).data = false ∧
    containsSub cfg0.AUTH_TAG.data sfBoth.content.data = true ∧
    containsSub cfg0.PRINT_TAG.data sfBoth.content.data = true := by
  decide

/-- C1 (amended): for every source file and every variant that is not
skipped, the tagged artifact on disk after processing the variant holds
exactly the substituted content: every literal occurrence of the auth
placeholder replaced by the resolved auth text when the variant includes the
auth token and by the empty string (deleted) when it does not, and the print
placeholder then treated likewise. -/
theorem C1_artifact_content (cfg : Config) (sf : SourceFile) (v : Variant) (st : RState)
    (h : skippedVariant cfg sf v = false) :
    ∃ fi, (processVariant cfg sf v st).fs (rtagPath sf v) = some fi ∧
      fi.content = specSubstAmended cfg v sf.content := by
  rw [processVariant_not_skipped h]
  obtain ⟨tfi, htfi, hc⟩ := substStep_rtag_exists cfg sf v st
  refine ⟨tfi, ?_, ?_⟩
  · rw [backendStep_frame _ _ _ (rtag_not_in_outs sf v _ _), formatsFold_fs]
    exact htfi
  · rw [hc]
    rfl

/-- Witness for C1's amended theorem at a concrete input. -/
theorem C1_artifact_content_witness :
    skippedVariant cfg0 sfBoth vNone = false ∧
    (∃ fi, (processVariant cfg0 sfBoth vNone emptyState).fs (rtagPath sfBoth vNone)
        = some fi ∧ fi.content = specSubstAmended cfg0 vNone sfBoth.content) :=
  ⟨by decide, C1_artifact_content cfg0 sfBoth vNone emptyState (by decide)⟩

/-- C6: if the variant requires the auth token and the source content has
zero grep matches for the auth placeholder — or likewise for the print token —
the variant is skipped entirely for this file: the state is unchanged except
that the no-tag counter is incremented (no tagged artifact write, no outputs,
no backend call, no trace events, no manifest entries for the variant). -/
theorem C6_tag_gating (cfg : Config) (sf : SourceFile) (v : Variant) (st : RState)
    (h : (v.inclAuth = true ∧ grepCount cfg.AUTH_TAG sf.content < 1) ∨
         (v.inclPrint = true ∧ grepCount cfg.PRINT_TAG sf.content < 1)) :
    processVariant cfg sf v st = { st with notagcount := st.notagcount + 1 } := by
  apply processVariant_skipped
  unfold skippedVariant noAuthTag noPrintTag
  rcases h with ⟨h1, h2⟩ | ⟨h1, h2⟩
  · rw [h1]
    simp [h2]
  · rw [h1]
    simp [h2]

/-- Witness for C6: a source file containing only the print placeholder has
its `auth` variant skipped with only the no-tag counter incremented. -/
theorem C6_tag_gating_witness :
    processVariant cfg0 sfPrintOnly vAuth emptyState
      = { emptyState with notagcount := emptyState.notagcount + 1 } :=
  C6_tag_gating cfg0 sfPrintOnly vAuth emptyState (Or.inl ⟨rfl, by decide⟩)

/-- C7: for every discovered source file, the final manifest maps its key
(source-root-relative path with extension stripped) to exactly the output
paths of every format of every non-skipped variant — appended regardless of
whether the format was up to date or regenerated (`expectedOutputs` depends
only on the gating checks, not on the filesystem) — and a file whose every
variant is skipped still has its key present, mapped to the empty list. -/
theorem C7_manifest_completeness (cfg : Config) (files : List SourceFile) (st0 : RState)
    (sf : SourceFile) (hmem : sf ∈ files)
    (hnodup : (files.map SourceFile.relStem).Nodup) (hm0 : st0.manifest = []) :
    lookupM (runPipeline cfg files st0).manifest sf.relStem
      = some (expectedOutputs cfg sf) := by
  rw [runPipeline_manifest, hm0]
  exact lookupM_runManifest_self files [] sf hmem hnodup (by simp)

/-- Witness for C7 at a concrete two-file run; the print-only file's `auth`
and `both` variants are skipped, so its list holds only the `none` outputs. -/
theorem C7_manifest_completeness_witness :
    sfPrintOnly ∈ [sfBoth, sfPrintOnly] ∧
    ([sfBoth, sfPrintOnly].map SourceFile.relStem).Nodup ∧
    emptyState.manifest = [] ∧
    lookupM (runPipeline cfg0 [sfBoth, sfPrintOnly] emptyState).manifest sfPrintOnly.relStem
      = some (expectedOutputs cfg0 sfPrintOnly) :=
  ⟨by decide, by decide, rfl,
    C7_manifest_completeness cfg0 [sfBoth, sfPrintOnly] emptyState sfPrintOnly
      (by decide) (by decide) rfl⟩

/-- C10: the built-in `none` variant requires neither token, so the gating
checks never skip it; hence every discovered source file's manifest list
contains the `none` variant's output for each of the two formats, so has at
least two entries — the "all variants skipped, empty list" case cannot occur. -/
theorem C10_none_variant (cfg : Config) (files : List SourceFile) (st0 : RState)
    (sf : SourceFile) (hmem : sf ∈ files)
    (hnodup : (files.map SourceFile.relStem).Nodup) (hm0 : st0.manifest = []) :
    skippedVariant cfg sf vNone = false ∧
    ∃ l, lookupM (runPipeline cfg files st0).manifest sf.relStem = some l ∧
      routPath sf vNone "pdf" ∈ l ∧ routPath sf vNone "png" ∈ l ∧ 2 ≤ l.length := by
  have hskip : skippedVariant cfg sf vNone = false := rfl
  have hlook : lookupM (runPipeline cfg files st0).manifest sf.relStem
      = some (expectedOutputs cfg sf) := by
    rw [runPipeline_manifest, hm0]
    exact lookupM_runManifest_self files [] sf hmem hnodup (by simp)
  have hexp : expectedOutputs cfg sf
      = variantOutputs cfg sf vAuth ++ (variantOutputs cfg sf vBoth
          ++ variantOutputs cfg sf vNone) := by
    simp [expectedOutputs, VARIANTS, vAuth, vBoth, vNone]
  have hnone : variantOutputs cfg sf vNone
      = [routPath sf vNone "pdf", routPath sf vNone "png"] := by
    simp [variantOutputs, hskip, FORMATS]
  refine ⟨hskip, expectedOutputs cfg sf, hlook, ?_, ?_, ?_⟩
  · rw [hexp, hnone]
    simp
  · rw [hexp, hnone]
    simp
  · rw [hexp, hnone]
    simp
    omega

/-- Witness for C10 at a concrete input. -/
theorem C10_none_variant_witness :
    skippedVariant cfg0 sfPrintOnly vNone = false ∧
    ∃ l, lookupM (runPipeline cfg0 [sfPrintOnly] emptyState).manifest sfPrintOnly.relStem
        = some l ∧
      routPath sfPrintOnly vNone "pdf" ∈ l ∧ routPath sfPrintOnly vNone "png" ∈ l ∧
      2 ≤ l.length :=
  C10_none_variant cfg0 [sfPrintOnly] emptyState sfPrintOnly (by decide) (by decide) rfl

/-- C8: the manifest is serialised exactly once, as the final event of the
run (so a run that aborts anywhere before the end has emitted no manifest
write), as a list of single-key entries in sorted key order that is a
permutation of the accumulated manifest; it is written unconditionally, with
no hypothesis on any existing manifest file. -/
theorem C8_manifest_serialization (cfg : Config) (files : List SourceFile) (st0 : RState)
    (htrace : st0.trace = []) (hm0 : st0.manifest = [])
    (hnodup : (files.map SourceFile.relStem).Nodup) :
    (fullRun cfg files st0).trace.getLast?
        = some (Event.manifestWrite (manifestOutput (runPipeline cfg files st0).manifest)) ∧
    (∀ e ∈ (fullRun cfg files st0).trace.dropLast, isManifestEvent e = false) ∧
    List.Pairwise (fun a b => strLeB a.1 b.1 = true)
      (manifestOutput (runPipeline cfg files st0).manifest) ∧
    (manifestOutput (runPipeline cfg files st0).manifest).Perm
      (runPipeline cfg files st0).manifest := by
  obtain ⟨l, hl, hlm⟩ := runPipeline_trace cfg files st0
  have htr : (fullRun cfg files st0).trace
      = l ++ [Event.manifestWrite (manifestOutput (runPipeline cfg files st0).manifest)] := by
    rw [fullRun_trace, hl, htrace]
    simp
  refine ⟨?_, ?_, manifestOutput_sorted _, ?_⟩
  · rw [htr, List.getLast?_concat]
  · rw [htr, List.dropLast_concat]
    exact hlm
  · apply manifestOutput_perm
    rw [runPipeline_manifest, hm0, runManifest_keys files [] hnodup (by simp)]
    simpa using hnodup

/-- Witness for C8 at a concrete two-file run. -/
theorem C8_manifest_serialization_witness :
    (fullRun cfg0 [sfBoth, sfPrintOnly] emptyState).trace.getLast?
        = some (Event.manifestWrite
            (manifestOutput (runPipeline cfg0 [sfBoth, sfPrintOnly] emptyState).manifest)) ∧
    (∀ e ∈ (fullRun cfg0 [sfBoth, sfPrintOnly] emptyState).trace.dropLast,
        isManifestEvent e = false) ∧
    List.Pairwise (fun a b => strLeB a.1 b.1 = true)
      (manifestOutput (runPipeline cfg0 [sfBoth, sfPrintOnly] emptyState).manifest) ∧
    (manifestOutput (runPipeline cfg0 [sfBoth, sfPrintOnly] emptyState).manifest).Perm
      (runPipeline cfg0 [sfBoth, sfPrintOnly] emptyState).manifest :=
  C8_manifest_serialization cfg0 [sfBoth, sfPrintOnly] emptyState rfl rfl (by decide)

/-- C3: idempotence — with the source files, tag texts and configuration
unchanged, a second process run over the render tree produced by a first run
performs no file writes and no backend invocations (its entire trace is the
single unconditional manifest write), and its manifest equals the first
run's. -/
theorem C3_idempotence (cfg : Config) (files : List SourceFile) (st0 : RState)
    (hnodup : (files.map SourceFile.relStem).Nodup) (hwf : Wf st0)
    (hm0 : st0.manifest = []) :
    (fullRun cfg files (freshProcess (fullRun cfg files st0))).trace
        = [Event.manifestWrite (manifestOutput (fullRun cfg files st0).manifest)] ∧
    (fullRun cfg files (freshProcess (fullRun cfg files st0))).manifest
        = (fullRun cfg files st0).manifest := by
  have hwf1 : Wf (runPipeline cfg files st0) := runPipeline_Wf files hwf
  have hsettled := @runPipeline_establish cfg files st0 hwf hnodup
  have hfresh_fs : (freshProcess (fullRun cfg files st0)).fs = (runPipeline cfg files st0).fs :=
    rfl
  have hstable := @runPipeline_stable cfg files (freshProcess (fullRun cfg files st0))
    (fun sf hsf => by rw [hfresh_fs]; exact hsettled sf hsf)
  have hm2 : (runPipeline cfg files (freshProcess (fullRun cfg files st0))).manifest
      = (runPipeline cfg files st0).manifest := by
    rw [runPipeline_manifest, runPipeline_manifest, hm0]
    rfl
  constructor
  · rw [fullRun_trace, hstable.2.1, hm2]
    rfl
  · rw [fullRun_manifest, fullRun_manifest, hm2]

/-- Witness for C3 at a concrete one-file run. -/
theorem C3_idempotence_witness :
    (fullRun cfg0 [sfBoth] (freshProcess (fullRun cfg0 [sfBoth] emptyState))).trace
        = [Event.manifestWrite (manifestOutput (fullRun cfg0 [sfBoth] emptyState).manifest)] ∧
    (fullRun cfg0 [sfBoth] (freshProcess (fullRun cfg0 [sfBoth] emptyState))).manifest
        = (fullRun cfg0 [sfBoth] emptyState).manifest :=
  C3_idempotence cfg0 [sfBoth] emptyState (by decide)
    (fun p fi hp => Option.noConfusion hp) rfl

theorem backendStep_trace_ext (cfg : Config) (rtag : String)
    (acc : RState × List String × List String) :
    ∃ l, (backendStep cfg rtag acc).trace = acc.1.trace ++ l := by
  rcases backendStep_trace cfg rtag acc with ht | ht
  · exact ⟨[], by rw [ht]; simp⟩
  · exact ⟨_, ht⟩

theorem substStep_trace_ext (cfg : Config) (sf : SourceFile) (v : Variant) (st : RState) :
    ∃ l₀, (substStep cfg sf v st).trace = st.trace ++ l₀ ∧
      l₀.filter isBackendCallEvent = [] ∧
      ∀ e ∈ l₀, e = Event.fileWrite (rtagPath sf v) := by
  rcases substStep_trace cfg sf v st with hst | hst
  · exact ⟨[], by rw [hst]; simp, rfl, by simp⟩
  · exact ⟨[Event.fileWrite (rtagPath sf v)], hst, rfl, by simp⟩

theorem pv_fileWrite_sub {cfg : Config} {sf : SourceFile} {v : Variant} {st : RState}
    (h : skippedVariant cfg sf v = false) {p : String}
    (hmem : Event.fileWrite p ∈ newEvents st (processVariant cfg sf v st)) :
    p = rtagPath sf v ∨
      p ∈ (formatsFold sf v (mtimeAt (substStep cfg sf v st).fs (rtagPath sf v))
            (substStep cfg sf v st)).2.2 := by
  rw [processVariant_not_skipped h] at hmem
  obtain ⟨l₀, hl₀, _, hl₀e⟩ := substStep_trace_ext cfg sf v st
  rcases backendStep_trace cfg (rtagPath sf v)
      (formatsFold sf v (mtimeAt (substStep cfg sf v st).fs (rtagPath sf v))
        (substStep cfg sf v st)) with ht | ht <;>
    rw [formatsFold_trace, hl₀] at ht
  · rw [newEvents_eq ht] at hmem
    exact Or.inl (by simpa using hl₀e _ hmem)
  · rw [List.append_assoc] at ht
    rw [newEvents_eq ht] at hmem
    rcases List.mem_append.mp hmem with hm | hm
    · exact Or.inl (by simpa using hl₀e _ hm)
    · rcases List.mem_cons.mp hm with heq | hm'
      · exact absurd heq (by simp)
      · obtain ⟨a, ha, hae⟩ := List.mem_map.mp hm'
        have : a = p := by simpa using hae
        exact Or.inr (this ▸ ha)

/-- C2: byte-identical suppression of the tagged-artifact write (lines
293-304).  For a non-skipped variant: when the tagged artifact already exists
with content equal to the substituted candidate, the run leaves the file
record (hence its modification time) untouched and emits no write event for
it; when the file is absent or its content differs, the candidate is written
with the current clock as its new modification time (strictly newer than any
previous one) and a write event for the path is emitted. -/
theorem C2_byte_identical (cfg : Config) (sf : SourceFile) (v : Variant) (st : RState)
    (hwf : Wf st) (h : skippedVariant cfg sf v = false) :
    (∀ fi, st.fs (rtagPath sf v) = some fi →
      fi.content = candContent cfg v sf.content →
        (processVariant cfg sf v st).fs (rtagPath sf v) = some fi ∧
        Event.fileWrite (rtagPath sf v) ∉ newEvents st (processVariant cfg sf v st)) ∧
    (st.fs (rtagPath sf v) = none →
        (processVariant cfg sf v st).fs (rtagPath sf v)
            = some ⟨candContent cfg v sf.content, st.now⟩ ∧
        Event.fileWrite (rtagPath sf v) ∈ newEvents st (processVariant cfg sf v st)) ∧
    (∀ fi, st.fs (rtagPath sf v) = some fi →
      fi.content ≠ candContent cfg v sf.content →
        (processVariant cfg sf v st).fs (rtagPath sf v)
            = some ⟨candContent cfg v sf.content, st.now⟩ ∧
        fi.mtime < st.now ∧
        Event.fileWrite (rtagPath sf v) ∈ newEvents st (processVariant cfg sf v st)) := by
  refine ⟨?_, ?_, ?_⟩
  · intro fi hfi hc
    have hst1 : substStep cfg sf v st = st := substStep_stable hfi hc
    constructor
    · rw [processVariant_not_skipped h, backendStep_frame _ _ _ (rtag_not_in_outs sf v _ _),
        formatsFold_fs, hst1]
      exact hfi
    · rw [processVariant_not_skipped h, hst1]
      by_cases hargs : (formatsFold sf v (mtimeAt st.fs (rtagPath sf v)) st).2.1 = []
      · rw [backendStep_empty _ _ _ hargs]
        have htr0 : (formatsFold sf v (mtimeAt st.fs (rtagPath sf v)) st).1.trace
            = st.trace ++ [] := by
          rw [formatsFold_trace]
          simp
        rw [newEvents_eq htr0]
        simp
      · rw [backendStep_call _ _ _ hargs]
        have htr : (backendWrite (formatsFold sf v (mtimeAt st.fs (rtagPath sf v)) st).2.2
            (addTrace (formatsFold sf v (mtimeAt st.fs (rtagPath sf v)) st).1
              [Event.backendCall ([cfg.BACKEND_PATH, "-z"]
                ++ (formatsFold sf v (mtimeAt st.fs (rtagPath sf v)) st).2.1
                ++ ["-f", rtagPath sf v])])).trace
            = st.trace ++ (Event.backendCall ([cfg.BACKEND_PATH, "-z"]
                ++ (formatsFold sf v (mtimeAt st.fs (rtagPath sf v)) st).2.1
                ++ ["-f", rtagPath sf v])
              :: (formatsFold sf v (mtimeAt st.fs (rtagPath sf v)) st).2.2.map
                Event.fileWrite) := by
          rw [backendWrite_trace, addTrace_trace, formatsFold_trace]
          simp
        rw [newEvents_eq htr]
        intro hmem
        rcases List.mem_cons.mp hmem with heq | hm
        · exact absurd heq (by simp)
        · obtain ⟨a, ha, hae⟩ := List.mem_map.mp hm
          have : a = rtagPath sf v := by simpa using hae
          exact rtag_not_in_outs sf v _ _ (this ▸ ha)
  · intro hnone
    have hw := @substStep_write_none cfg sf v st hnone
    constructor
    · rw [processVariant_not_skipped h, backendStep_frame _ _ _ (rtag_not_in_outs sf v _ _),
        formatsFold_fs, hw]
      exact writeFS_same _ _ _
    · rw [processVariant_not_skipped h]
      obtain ⟨l₂, hl₂⟩ := backendStep_trace_ext cfg (rtagPath sf v)
        (formatsFold sf v (mtimeAt (substStep cfg sf v st).fs (rtagPath sf v))
          (substStep cfg sf v st))
      rw [formatsFold_trace] at hl₂
      have hsttr : (substStep cfg sf v st).trace
          = st.trace ++ [Event.fileWrite (rtagPath sf v)] := by rw [hw]
      rw [hsttr] at hl₂
      have htr : (backendStep cfg (rtagPath sf v)
          (formatsFold sf v (mtimeAt (substStep cfg sf v st).fs (rtagPath sf v))
            (substStep cfg sf v st))).trace
          = st.trace ++ ([Event.fileWrite (rtagPath sf v)] ++ l₂) := by
        rw [hl₂]
        simp
      rw [newEvents_eq htr]
      simp
  · intro fi hfi hc
    have hw := @substStep_write_diff cfg sf v st fi hfi hc
    refine ⟨?_, hwf _ _ hfi, ?_⟩
    · rw [processVariant_not_skipped h, backendStep_frame _ _ _ (rtag_not_in_outs sf v _ _),
        formatsFold_fs, hw]
      exact writeFS_same _ _ _
    · rw [processVariant_not_skipped h]
      obtain ⟨l₂, hl₂⟩ := backendStep_trace_ext cfg (rtagPath sf v)
        (formatsFold sf v (mtimeAt (substStep cfg sf v st).fs (rtagPath sf v))
          (substStep cfg sf v st))
      rw [formatsFold_trace] at hl₂
      have hsttr : (substStep cfg sf v st).trace
          = st.trace ++ [Event.fileWrite (rtagPath sf v)] := by rw [hw]
      rw [hsttr] at hl₂
      have htr : (backendStep cfg (rtagPath sf v)
          (formatsFold sf v (mtimeAt (substStep cfg sf v st).fs (rtagPath sf v))
            (substStep cfg sf v st))).trace
          = st.trace ++ ([Event.fileWrite (rtagPath sf v)] ++ l₂) := by
        rw [hl₂]
        simp
      rw [newEvents_eq htr]
      simp

/-- Witness for C2 at a concrete input (absent-file case: the candidate is
written with the clock value as modification time and a write event occurs). -/
theorem C2_byte_identical_witness :
    (processVariant cfg0 sfBoth vNone emptyState).fs (rtagPath sfBoth vNone)
        = some ⟨candContent cfg0 vNone sfBoth.content, emptyState.now⟩ ∧
    Event.fileWrite (rtagPath sfBoth vNone)
      ∈ newEvents emptyState (processVariant cfg0 sfBoth vNone emptyState) :=
  (C2_byte_identical cfg0 sfBoth vNone emptyState
    (fun p fi hp => Option.noConfusion hp) (by decide)).2.1 rfl

/-- C4: the staleness check (lines 316-323) for one output format of a
non-skipped variant.  If the output file exists with modification time at
least that of the tagged artifact (after the substitution step), the format
is skipped: its file record is untouched and no write event for it occurs.
If the output file is absent or strictly older, the format is regenerated:
after the run the output file exists with modification time at least the
tagged artifact's, and a write event for its path occurs. -/
theorem C4_staleness (cfg : Config) (sf : SourceFile) (v : Variant) (st : RState)
    (f : String) (hwf : Wf st) (h : skippedVariant cfg sf v = false) (hf : f ∈ FORMATS) :
    (∀ ofi, st.fs (routPath sf v f) = some ofi →
      mtimeAt (substStep cfg sf v st).fs (rtagPath sf v) ≤ ofi.mtime →
        (processVariant cfg sf v st).fs (routPath sf v f) = st.fs (routPath sf v f) ∧
        Event.fileWrite (routPath sf v f) ∉ newEvents st (processVariant cfg sf v st)) ∧
    ((st.fs (routPath sf v f) = none ∨
      (∃ ofi, st.fs (routPath sf v f) = some ofi ∧
        ofi.mtime < mtimeAt (substStep cfg sf v st).fs (rtagPath sf v))) →
      ∃ fi, (processVariant cfg sf v st).fs (routPath sf v f) = some fi ∧
        mtimeAt (substStep cfg sf v st).fs (rtagPath sf v) ≤ fi.mtime ∧
        Event.fileWrite (routPath sf v f) ∈ newEvents st (processVariant cfg sf v st)) := by
  have hner : routPath sf v f ≠ rtagPath sf v := (rtag_ne_rout sf v hf).symm
  have hrfr : (substStep cfg sf v st).fs (routPath sf v f) = st.fs (routPath sf v f) :=
    substStep_fs_frame cfg sf v st hner
  constructor
  · intro ofi hofi hle
    have hreg : regenCond (substStep cfg sf v st).fs
        (mtimeAt (substStep cfg sf v st).fs (rtagPath sf v)) (routPath sf v f) = false :=
      regenCond_false_intro (by rw [hrfr]; exact hofi) hle
    have hnot : routPath sf v f ∉ (formatsFold sf v
        (mtimeAt (substStep cfg sf v st).fs (rtagPath sf v)) (substStep cfg sf v st)).2.2 := by
      intro hm
      have := (rout_mem_outs_iff sf v _ _ hf).mp hm
      rw [hreg] at this
      cases this
    constructor
    · rw [processVariant_not_skipped h, backendStep_frame _ _ _ hnot, formatsFold_fs, hrfr]
    · intro hmem
      rcases pv_fileWrite_sub h hmem with heq | hm
      · exact hner heq
      · exact hnot hm
  · intro hcond
    have hreg : regenCond (substStep cfg sf v st).fs
        (mtimeAt (substStep cfg sf v st).fs (rtagPath sf v)) (routPath sf v f) = true := by
      unfold regenCond
      rcases hcond with hnone | ⟨ofi, hofi, hlt⟩
      · rw [hrfr, hnone]
      · rw [hrfr, hofi]
        simpa using hlt
    have hmem_outs : routPath sf v f ∈ (formatsFold sf v
        (mtimeAt (substStep cfg sf v st).fs (rtagPath sf v)) (substStep cfg sf v st)).2.2 :=
      (rout_mem_outs_iff sf v _ _ hf).mpr hreg
    have hargs := args_ne_nil_of_regen sf v
      (mtimeAt (substStep cfg sf v st).fs (rtagPath sf v)) (substStep cfg sf v st) hf hreg
    obtain ⟨tfi, htfi, _, hltnow⟩ :=
      @substStep_rtag cfg sf v st hwf
    have htagM : mtimeAt (substStep cfg sf v st).fs (rtagPath sf v) = tfi.mtime := by
      unfold mtimeAt
      rw [htfi]
    obtain ⟨fi, hfi, hge⟩ := backendStep_mem cfg (rtagPath sf v)
      (formatsFold sf v (mtimeAt (substStep cfg sf v st).fs (rtagPath sf v))
        (substStep cfg sf v st)) hmem_outs hargs
    rw [formatsFold_now] at hge
    refine ⟨fi, ?_, ?_, ?_⟩
    · rw [processVariant_not_skipped h]
      exact hfi
    · rw [htagM]
      exact Nat.le_trans (Nat.le_of_lt (htagM ▸ hltnow)) hge
    · rw [processVariant_not_skipped h]
      obtain ⟨l₀, hl₀, _, _⟩ := substStep_trace_ext cfg sf v st
      have htr : (backendStep cfg (rtagPath sf v)
          (formatsFold sf v (mtimeAt (substStep cfg sf v st).fs (rtagPath sf v))
            (substStep cfg sf v st))).trace
          = st.trace ++ (l₀ ++ (Event.backendCall ([cfg.BACKEND_PATH, "-z"]
              ++ (formatsFold sf v (mtimeAt (substStep cfg sf v st).fs (rtagPath sf v))
                  (substStep cfg sf v st)).2.1
              ++ ["-f", rtagPath sf v])
            :: (formatsFold sf v (mtimeAt (substStep cfg sf v st).fs (rtagPath sf v))
                (substStep cfg sf v st)).2.2.map Event.fileWrite)) := by
        rw [backendStep_call _ _ _ hargs, backendWrite_trace, addTrace_trace,
          formatsFold_trace, hl₀]
        simp
      rw [newEvents_eq htr]
      refine List.mem_append.mpr (Or.inr ?_)
      refine List.mem_cons.mpr (Or.inr ?_)
      exact List.mem_map.mpr ⟨routPath sf v f, hmem_outs, rfl⟩

/-- Witness for C4 at a concrete input (absent output file: the format is
regenerated and the fresh output is at least as new as the tagged artifact). -/
theorem C4_staleness_witness :
    ∃ fi, (processVariant cfg0 sfBoth vBoth emptyState).fs (routPath sfBoth vBoth "pdf")
        = some fi ∧
      mtimeAt (substStep cfg0 sfBoth vBoth emptyState).fs (rtagPath sfBoth vBoth) ≤ fi.mtime ∧
      Event.fileWrite (routPath sfBoth vBoth "pdf")
        ∈ newEvents emptyState (processVariant cfg0 sfBoth vBoth emptyState) :=
  (C4_staleness cfg0 sfBoth vBoth emptyState "pdf"
    (fun p fi hp => Option.noConfusion hp) (by decide) (by decide)).2 (Or.inl rfl)

theorem formatsFold_args_filter (sf : SourceFile) (v : Variant) (st1 : RState) :
    (formatsFold sf v (mtimeAt st1.fs (rtagPath sf v)) st1).2.1
      = ((FORMATS.filter (needsRegenB sf v st1)).map
          (fun f => outInstr f (routPath sf v f))).flatten := by
  rw [formatsFold_args]
  cases hp : regenCond st1.fs (mtimeAt st1.fs (rtagPath sf v)) (routPath sf v "pdf") <;>
    cases hq : regenCond st1.fs (mtimeAt st1.fs (rtagPath sf v)) (routPath sf v "png") <;>
    simp [FORMATS, needsRegenB, hp, hq]

/-- C5: backend batching (lines 331-339).  For a non-skipped variant, when no
format needs regeneration the run emits zero backend invocations for it; when
the set of formats needing regeneration is non-empty, exactly one backend
invocation occurs, whose argument list is the batch flag, one output
instruction per needed format, and the tagged-artifact input path. -/
theorem C5_backend_batching (cfg : Config) (sf : SourceFile) (v : Variant) (st : RState)
    (h : skippedVariant cfg sf v = false) :
    (FORMATS.filter (needsRegenB sf v (substStep cfg sf v st)) = [] →
      (newEvents st (processVariant cfg sf v st)).filter isBackendCallEvent = []) ∧
    (FORMATS.filter (needsRegenB sf v (substStep cfg sf v st)) ≠ [] →
      (newEvents st (processVariant cfg sf v st)).filter isBackendCallEvent
        = [Event.backendCall ([cfg.BACKEND_PATH, "-z"]
            ++ ((FORMATS.filter (needsRegenB sf v (substStep cfg sf v st))).map
                  (fun f => outInstr f (routPath sf v f))).flatten
            ++ ["-f", rtagPath sf v])]) := by
  have hargs_eq := formatsFold_args_filter sf v (substStep cfg sf v st)
  obtain ⟨l₀, hl₀, hl₀f, _⟩ := substStep_trace_ext cfg sf v st
  constructor
  · intro hempty
    have hargs : (formatsFold sf v
        (mtimeAt (substStep cfg sf v st).fs (rtagPath sf v)) (substStep cfg sf v st)).2.1
        = [] := by
      rw [hargs_eq, hempty]
      rfl
    rw [processVariant_not_skipped h, backendStep_empty _ _ _ hargs]
    have htr : (formatsFold sf v (mtimeAt (substStep cfg sf v st).fs (rtagPath sf v))
        (substStep cfg sf v st)).1.trace = st.trace ++ l₀ := by
      rw [formatsFold_trace, hl₀]
    rw [newEvents_eq htr, hl₀f]
  · intro hne
    have hargs : (formatsFold sf v
        (mtimeAt (substStep cfg sf v st).fs (rtagPath sf v)) (substStep cfg sf v st)).2.1
        ≠ [] := by
      rw [hargs_eq]
      cases hF : FORMATS.filter (needsRegenB sf v (substStep cfg sf v st)) with
      | nil => exact absurd hF hne
      | cons g gs =>
        have hgF : g ∈ FORMATS := List.mem_of_mem_filter (hF ▸ List.mem_cons_self g gs)
        have hginstr : outInstr g (routPath sf v g) ≠ [] := by
          rcases FORMATS_cases hgF with rfl | rfl
          · rw [outInstr_pdf]
            simp
          · rw [outInstr_png]
            simp
        intro hnil
        rw [List.map_cons, List.flatten_cons] at hnil
        exact hginstr (List.append_eq_nil.mp hnil).1
    rw [processVariant_not_skipped h]
    have htr : (backendStep cfg (rtagPath sf v)
        (formatsFold sf v (mtimeAt (substStep cfg sf v st).fs (rtagPath sf v))
          (substStep cfg sf v st))).trace
        = st.trace ++ (l₀ ++ (Event.backendCall ([cfg.BACKEND_PATH, "-z"]
            ++ (formatsFold sf v (mtimeAt (substStep cfg sf v st).fs (rtagPath sf v))
                (substStep cfg sf v st)).2.1
            ++ ["-f", rtagPath sf v])
          :: (formatsFold sf v (mtimeAt (substStep cfg sf v st).fs (rtagPath sf v))
              (substStep cfg sf v st)).2.2.map Event.fileWrite)) := by
      rw [backendStep_call _ _ _ hargs, backendWrite_trace, addTrace_trace,
        formatsFold_trace, hl₀]
      simp
    rw [newEvents_eq htr, List.filter_append, hl₀f, List.filter_cons, hargs_eq]
    simp [isBackendCallEvent, filter_call_map_fileWrite]

/-- Witness for C5 at a concrete input: both formats need regeneration, so
exactly one backend call with both output instructions occurs. -/
theorem C5_backend_batching_witness :
    (newEvents emptyState (processVariant cfg0 sfBoth vBoth emptyState)).filter
        isBackendCallEvent
      = [Event.backendCall ["inkscape", "-z", "-A", "logo-both.pdf", "-e", "logo-both.png",
          "-f", "logo-both.svg"]] := by
  have h := (C5_backend_batching cfg0 sfBoth vBoth emptyState (by decide)).2 (by decide)
  rw [h]
  decide

end PPAU
